import Mathlib

/-!
# OBJ loader (`OBJ_Loader.h`): a shallow embedding and its verification

The development follows `src/OBJ_loader_and_creator/OBJ_Loader.h`
(namespace `objl`) and the emission loop of `loadprint.cpp`.

Modelling conventions.

* `std::string` is a list of characters (`Str`), `std::vector<T>` is a `List T`,
  `std::set<int>` is the increasing list of its elements (`IntSet`).
* `std::string::npos` is `none`; a position is an `Option Nat`.
* Container sizes are natural numbers that fit the C++ `int` the source casts
  them to (`int(in.size())`, `int(elements.size())`); values parsed from the
  input by `std::stoi` are range-checked against the 32-bit `int` explicitly.
* Assertions are enabled (no `NDEBUG`). A failed `assert` and an exception
  escaping `std::stoi` / `std::stod` stop the load. A vector subscript past the
  end (`spos[k]`, `svert[0]`) is undefined behaviour in the source; the model
  stops the load there with a failure of its own, `SubscriptOutOfRange`. These
  are the `Failure` values below.
* `std::stod` and the stream formatting of a `double` belong to the C++ library,
  not to the repository: the coordinate type `F` and the parser
  `stod : Str → Option F` are parameters of the loader.
-/

namespace objl

/-- A `std::string`, as the list of its characters. -/
abbrev Str := List Char

/-- Coordinates of a point; mirrors `struct Vector3`. -/
structure Vector3 (F : Type) where
  X : F
  Y : F
  Z : F
deriving DecidableEq, Repr

/-- A `std::set<int>`, as the list of its elements in increasing order (the
order in which the container iterates). -/
abbrev IntSet := List Int

/-- Models `std::set<int>::insert`: the element goes to its place in the order,
and an element already present is not added again. -/
def IntSet.insert (x : Int) : IntSet → IntSet
  | [] => [x]
  | y :: ys =>
    if x < y then x :: y :: ys
    else if x = y then y :: ys
    else y :: IntSet.insert x ys

/-- Mirrors `struct Triangle`: the `std::set<int>` of point indexes and the
text of the line that defined the face. -/
structure Triangle where
  array : IntSet
  strVersion : Str
deriving DecidableEq

namespace algorithm

/-! ### The `std::string` members used by the source -/

/-- First index `k + j` at which `p` holds, scanning a string whose first
character has index `k`. -/
def findAt (p : Char → Bool) : Str → Nat → Option Nat
  | [], _ => none
  | c :: cs, k => if p c then some k else findAt p cs (k + 1)

/-- Models `in.find_first_of(chars, pos)`; `pos = none` is `npos`. -/
def find_first_of (s chars : Str) (pos : Option Nat) : Option Nat :=
  match pos with
  | none => none
  | some k => findAt (fun c => chars.contains c) (s.drop k) k

/-- Models `in.find_first_not_of(chars, pos)`; `pos = none` is `npos`. -/
def find_first_not_of (s chars : Str) (pos : Option Nat) : Option Nat :=
  match pos with
  | none => none
  | some k => findAt (fun c => !chars.contains c) (s.drop k) k

/-- Models `in.find_last_not_of(chars)`. -/
def find_last_not_of (s chars : Str) : Option Nat :=
  match findAt (fun c => !chars.contains c) s.reverse 0 with
  | none => none
  | some j => some (s.length - 1 - j)

/-- Models `in.substr(pos, n)` for `pos ≤ in.size()`. -/
def substr (s : Str) (pos n : Nat) : Str := (s.drop pos).take n

/-- The character set `" \t"` of `tail` and `firstToken`. -/
def blanks : Str := [' ', '\t']

/-- The character test of `find_first_of(" \t")`. -/
def isBlank (c : Char) : Bool := blanks.contains c

/-! ### `split` -/

/-- The `for` loop of `split`: `i` is the loop index, `temp` and `out` the two
locals. The first argument bounds the number of iterations. In the branch that
pushes a non-empty `temp` the source does `i += token.size() - 1` and the loop
header then does `i++`, together `i + token.size()`. -/
def splitLoop (inp token : Str) : Nat → Nat → Str → List Str → List Str
  | 0, _, _, out => out
  | fuel + 1, i, temp, out =>
    if h : i < inp.length then
      let test := substr inp i token.length
      if test = token then
        if temp ≠ [] then
          splitLoop inp token fuel (i + token.length) [] (out ++ [temp])
        else
          splitLoop inp token fuel (i + 1) temp (out ++ [[]])
      else if i + token.length ≥ inp.length then
        out ++ [temp ++ substr inp i token.length]
      else
        splitLoop inp token fuel (i + 1) (temp ++ [inp[i]]) out
    else out

/-- Models `split(in, out, token)`; the result is the final `out`. Every
reachable iteration advances `i`, so `in.size()` iterations suffice. -/
def split (inp token : Str) : List Str :=
  splitLoop inp token inp.length 0 [] []

/-- The rest of the `split` loop for a one-character token `c`, as a recursion
on the unread part of the text: `temp` as in the loop, result the entries still
to be pushed. It is related to `splitLoop` by `splitLoop_single` below. -/
def splitFrom (c : Char) : Str → Str → List Str
  | [], _ => []
  | x :: xs, temp =>
    if x = c then temp :: splitFrom c xs []
    else if xs = [] then [temp ++ [x]]
    else splitFrom c xs (temp ++ [x])

/-- The reference split of a text at every occurrence of the character `c`: the
segments between consecutive occurrences, empty segments kept. A text with `n`
occurrences has `n + 1` segments. -/
def referenceSplit (c : Char) : Str → List Str
  | [] => [[]]
  | x :: xs =>
    if x = c then [] :: referenceSplit c xs
    else
      match referenceSplit c xs with
      | seg :: more => (x :: seg) :: more
      | [] => [[x]]

/-- The segments occur in the text one after the other, from left to right and
without overlap. -/
def OccurInOrder : List Str → Str → Prop
  | [], _ => True
  | seg :: more, text => ∃ before after, text = before ++ seg ++ after ∧ OccurInOrder more after

/-! ### `tail` and `firstToken` -/

/-- Models `algorithm::tail`. -/
def tail (inp : Str) : Str :=
  let token_start := find_first_not_of inp blanks (some 0)
  let space_start := find_first_of inp blanks token_start
  let tail_start := find_first_not_of inp blanks space_start
  let tail_end := find_last_not_of inp blanks
  match tail_start, tail_end with
  | some ts, some te => substr inp ts (te - ts + 1)
  | some ts, none => inp.drop ts
  | none, _ => []

/-- Models `algorithm::firstToken`. -/
def firstToken (inp : Str) : Str :=
  if inp ≠ [] then
    let token_start := find_first_not_of inp blanks (some 0)
    let token_end := find_first_of inp blanks token_start
    match token_start, token_end with
    | some ts, some te => substr inp ts (te - ts)
    | some ts, none => inp.drop ts
    | none, _ => []
  else []

/-! ### `std::stoi` and `getIndex` -/

/-- The two exceptions of `std::stoi`. -/
inductive StoiError where
  | invalid_argument
  | out_of_range
deriving DecidableEq, Repr

/-- The C locale `isspace`. -/
def isspace (c : Char) : Bool :=
  c = ' ' || c = '\t' || c = '\n' || c = '\r' || c = '\x0b' || c = '\x0c'

/-- Value of a run of decimal digit characters, most significant first. -/
def digitsValue (ds : Str) : Nat :=
  ds.foldl (fun acc c => 10 * acc + (c.toNat - 48)) 0

/-- Models `std::stoi(s)` (base 10, 32-bit `int`): leading white space is
skipped, one optional sign is read, then the longest run of digits; whatever
follows is ignored. No digit: `invalid_argument`. Value outside `int`:
`out_of_range`. -/
def stoi (s : Str) : Except StoiError Int :=
  let s1 := s.dropWhile isspace
  let neg := s1.head? = some '-'
  let s2 := if s1.head? = some '-' ∨ s1.head? = some '+' then s1.drop 1 else s1
  let ds := s2.takeWhile Char.isDigit
  if ds = [] then Except.error StoiError.invalid_argument
  else
    let v : Int := if neg then -(digitsValue ds : Int) else (digitsValue ds : Int)
    if v < -2147483648 ∨ 2147483647 < v then Except.error StoiError.out_of_range
    else Except.ok v

/-- The text `s` is the decimal text of the integer `N`: an optional minus sign,
then one or more decimal digits whose value is the magnitude of `N`. -/
def IsDecimalText (s : Str) (N : Int) : Prop :=
  if s.head? = some '-' then
    s.drop 1 ≠ [] ∧ (∀ c ∈ s.drop 1, c.isDigit = true) ∧ N = -(digitsValue (s.drop 1) : Int)
  else
    s ≠ [] ∧ (∀ c ∈ s, c.isDigit = true) ∧ N = (digitsValue s : Int)

instance (s : Str) (N : Int) : Decidable (IsDecimalText s N) :=
  inferInstanceAs (Decidable (if s.head? = some '-' then
    s.drop 1 ≠ [] ∧ (∀ c ∈ s.drop 1, c.isDigit = true) ∧ N = -(digitsValue (s.drop 1) : Int)
  else
    s ≠ [] ∧ (∀ c ∈ s, c.isDigit = true) ∧ N = (digitsValue s : Int)))

/-- The token is a valid integer: an optional sign followed by one or more
decimal digits and nothing else. -/
def IsValidInteger (s : Str) : Prop :=
  (if s.head? = some '-' ∨ s.head? = some '+' then s.drop 1 else s) ≠ [] ∧
  ∀ c ∈ (if s.head? = some '-' ∨ s.head? = some '+' then s.drop 1 else s), c.isDigit = true

instance (s : Str) : Decidable (IsValidInteger s) :=
  inferInstanceAs (Decidable
    ((if s.head? = some '-' ∨ s.head? = some '+' then s.drop 1 else s) ≠ [] ∧
      ∀ c ∈ (if s.head? = some '-' ∨ s.head? = some '+' then s.drop 1 else s),
        c.isDigit = true))

/-- The token starts with an integer: after optional leading white space and
one optional sign it continues with a decimal digit. -/
def startsWithInteger (s : Str) : Bool :=
  match (if (s.dropWhile isspace).head? = some '-' ∨ (s.dropWhile isspace).head? = some '+'
      then (s.dropWhile isspace).drop 1 else s.dropWhile isspace) with
  | [] => false
  | c :: _ => c.isDigit

/-- Models `algorithm::getIndex(elements, index)`, with `count` the value of
`elements.size()`. -/
def getIndex (count : Nat) (index : Str) : Except StoiError Int :=
  match stoi index with
  | Except.error e => Except.error e
  | Except.ok idx => if idx < 0 then Except.ok ((count : Int) + idx) else Except.ok (idx - 1)

end algorithm

/-! ### The loader -/

/-- The ways a load stops early. `DuplicateField` is one of the four
"must be 0 or 1 times" assertions, `MalformedFace` the assertion
"face must be triangle", `InvalidIndex` an exception of `std::stoi` in
`getIndex`, `MalformedVertex` an exception of `std::stod` on one of the first
three fields of a `v` line, and `SubscriptOutOfRange` an unchecked vector
subscript past the end: `spos[k]` on a `v` line with fewer than three fields,
or `svert[0]` on an empty `svert`. The source has no defined behaviour at such a
subscript; the model stops there. -/
inductive Failure where
  | DuplicateField
  | MalformedFace
  | InvalidIndex
  | MalformedVertex
  | SubscriptOutOfRange
deriving DecidableEq, Repr

/-- The data members of `class Loader`. -/
structure Loader (F : Type) where
  strMesh : Str
  strMaterial : Str
  strSmoothShading : Str
  LoadedVertices : List (Vector3 F)
  LoadedTriangles : List Triangle
  strMaterialPath : Str
  strNormals : List Str
  strTextures : List Str
deriving DecidableEq

/-- The state after the eight `clear()` calls at the start of `LoadFile`. -/
def Loader.cleared (F : Type) : Loader F :=
  { strMesh := [], strMaterial := [], strSmoothShading := [],
    LoadedVertices := [], LoadedTriangles := [], strMaterialPath := [],
    strNormals := [], strTextures := [] }

/-- The keywords of the dispatch chain. -/
def kw_g : Str := ['g']
def kw_o : Str := ['o']
def kw_v : Str := ['v']
def kw_vt : Str := ['v', 't']
def kw_vn : Str := ['v', 'n']
def kw_f : Str := ['f']
def kw_usemtl : Str := ['u', 's', 'e', 'm', 't', 'l']
def kw_s : Str := ['s']
def kw_mtllib : Str := ['m', 't', 'l', 'l', 'i', 'b']

/-- The part of a face-vertex token before its first `/`. -/
def beforeSlash (tok : Str) : Str := tok.takeWhile (fun x => x != '/')

/-- The index reference of a face-vertex token is consistent with `count`
positions: when `svert[0]` exists and `std::stoi` reads the `int` `N` from it,
`1 ≤ N ≤ count` or `−count ≤ N ≤ −1`. -/
def indexInRange (count : Nat) (tok : Str) : Bool :=
  match algorithm.split tok ['/'] with
  | [] => true
  | s0 :: _ =>
    match algorithm.stoi s0 with
    | Except.error _ => true
    | Except.ok N =>
      decide ((1 ≤ N ∧ N ≤ (count : Int)) ∨ (-(count : Int) ≤ N ∧ N ≤ -1))

/-- The inner `for` loop of the `f` branch over the remaining entries of
`sface`; `arr` is `triangle.array` so far and `count` is
`LoadedVertices.size()`. -/
def faceLoop (count : Nat) : List Str → IntSet → Except Failure IntSet
  | [], arr => Except.ok arr
  | tok :: rest, arr =>
    match algorithm.split tok ['/'] with
    | [] => Except.error Failure.SubscriptOutOfRange
    | s0 :: _ =>
      match algorithm.getIndex count s0 with
      | Except.error _ => Except.error Failure.InvalidIndex
      | Except.ok index => faceLoop count rest (IntSet.insert index arr)

/-- The body of the `while (std::getline(file, curline))` loop of `LoadFile`:
one line, from loader state `st`. `curline[0]` of an empty string is the
terminating null character. Every branch of the source works on locals
(`spos`, `sface`, `triangle`) and writes a member in its last statement only,
after the last point at which it can stop; so a line that fails returns no new
state. -/
def processLine {F : Type} (stod : Str → Option F) (st : Loader F) (curline : Str) :
    Except Failure (Loader F) :=
  if algorithm.firstToken curline = kw_g ∨ curline.headD (Char.ofNat 0) = 'g' then
    Except.ok st
  else if algorithm.firstToken curline = kw_o then
    if st.strMesh = [] then Except.ok { st with strMesh := curline }
    else Except.error Failure.DuplicateField
  else if algorithm.firstToken curline = kw_v then
    match algorithm.split (algorithm.tail curline) [' '] with
    | a :: b :: c :: _ =>
      match stod a, stod b, stod c with
      | some x, some y, some z =>
        Except.ok { st with LoadedVertices := st.LoadedVertices ++ [⟨x, y, z⟩] }
      | _, _, _ => Except.error Failure.MalformedVertex
    | _ => Except.error Failure.SubscriptOutOfRange
  else if algorithm.firstToken curline = kw_vt then
    Except.ok { st with strTextures := st.strTextures ++ [curline] }
  else if algorithm.firstToken curline = kw_vn then
    Except.ok { st with strNormals := st.strNormals ++ [curline] }
  else if algorithm.firstToken curline = kw_f then
    let sface := algorithm.split (algorithm.tail curline) [' ']
    if sface.length = 3 then
      match faceLoop st.LoadedVertices.length sface [] with
      | Except.error e => Except.error e
      | Except.ok arr =>
        Except.ok { st with
          LoadedTriangles := st.LoadedTriangles ++ [{ array := arr, strVersion := curline }] }
    else Except.error Failure.MalformedFace
  else if algorithm.firstToken curline = kw_usemtl then
    if st.strMaterial = [] then Except.ok { st with strMaterial := curline }
    else Except.error Failure.DuplicateField
  else if algorithm.firstToken curline = kw_s then
    if st.strSmoothShading = [] then Except.ok { st with strSmoothShading := curline }
    else Except.error Failure.DuplicateField
  else if algorithm.firstToken curline = kw_mtllib then
    if st.strMaterialPath = [] then Except.ok { st with strMaterialPath := curline }
    else Except.error Failure.DuplicateField
  else Except.ok st

/-- The successful outcomes of `processLine`, one constructor per branch of the
dispatch chain; `processLine_ok_iff` below shows it is exactly
`processLine … = ok …`. -/
inductive Step {F : Type} (stod : Str → Option F) : Loader F → Str → Loader F → Prop
  | group (st : Loader F) (l : Str)
      (h : algorithm.firstToken l = kw_g ∨ l.headD (Char.ofNat 0) = 'g') : Step stod st l st
  | object (st : Loader F) (l : Str) (h : algorithm.firstToken l = kw_o)
      (hempty : st.strMesh = []) : Step stod st l { st with strMesh := l }
  | vertex (st : Loader F) (l a b c : Str) (more : List Str) (x y z : F)
      (h : algorithm.firstToken l = kw_v)
      (hsplit : algorithm.split (algorithm.tail l) [' '] = a :: b :: c :: more)
      (hx : stod a = some x) (hy : stod b = some y) (hz : stod c = some z) :
      Step stod st l { st with LoadedVertices := st.LoadedVertices ++ [⟨x, y, z⟩] }
  | texture (st : Loader F) (l : Str) (h : algorithm.firstToken l = kw_vt) :
      Step stod st l { st with strTextures := st.strTextures ++ [l] }
  | normal (st : Loader F) (l : Str) (h : algorithm.firstToken l = kw_vn) :
      Step stod st l { st with strNormals := st.strNormals ++ [l] }
  | face (st : Loader F) (l : Str) (arr : IntSet) (h : algorithm.firstToken l = kw_f)
      (hlen : (algorithm.split (algorithm.tail l) [' ']).length = 3)
      (hloop : faceLoop st.LoadedVertices.length (algorithm.split (algorithm.tail l) [' ']) [] =
        Except.ok arr) :
      Step stod st l { st with
        LoadedTriangles := st.LoadedTriangles ++ [{ array := arr, strVersion := l }] }
  | material (st : Loader F) (l : Str) (h : algorithm.firstToken l = kw_usemtl)
      (hempty : st.strMaterial = []) : Step stod st l { st with strMaterial := l }
  | smoothing (st : Loader F) (l : Str) (h : algorithm.firstToken l = kw_s)
      (hempty : st.strSmoothShading = []) : Step stod st l { st with strSmoothShading := l }
  | library (st : Loader F) (l : Str) (h : algorithm.firstToken l = kw_mtllib)
      (hempty : st.strMaterialPath = []) : Step stod st l { st with strMaterialPath := l }
  | other (st : Loader F) (l : Str)
      (hg : ¬ (algorithm.firstToken l = kw_g ∨ l.headD (Char.ofNat 0) = 'g'))
      (ho : algorithm.firstToken l ≠ kw_o) (hv : algorithm.firstToken l ≠ kw_v)
      (hvt : algorithm.firstToken l ≠ kw_vt) (hvn : algorithm.firstToken l ≠ kw_vn)
      (hf : algorithm.firstToken l ≠ kw_f) (hu : algorithm.firstToken l ≠ kw_usemtl)
      (hs : algorithm.firstToken l ≠ kw_s) (hm : algorithm.firstToken l ≠ kw_mtllib) :
      Step stod st l st

/-- The member that the branch of keyword `kw` assigns, for the four keywords
`o`, `usemtl`, `s`, `mtllib` (in that order; any other `kw` is read as `mtllib`). -/
def singularField {F : Type} (kw : Str) (st : Loader F) : Str :=
  if kw = kw_o then st.strMesh
  else if kw = kw_usemtl then st.strMaterial
  else if kw = kw_s then st.strSmoothShading
  else st.strMaterialPath

/-- Every stored line carries the keyword of the branch that stored it: each of
the four singular members is empty or has its keyword as first token, every
texture line has first token `vt` and every normal line `vn`. -/
def Loader.WellTagged {F : Type} (d : Loader F) : Prop :=
  (d.strMesh = [] ∨ algorithm.firstToken d.strMesh = kw_o) ∧
  (d.strMaterial = [] ∨ algorithm.firstToken d.strMaterial = kw_usemtl) ∧
  (d.strSmoothShading = [] ∨ algorithm.firstToken d.strSmoothShading = kw_s) ∧
  (d.strMaterialPath = [] ∨ algorithm.firstToken d.strMaterialPath = kw_mtllib) ∧
  (∀ t ∈ d.strTextures, algorithm.firstToken t = kw_vt) ∧
  (∀ t ∈ d.strNormals, algorithm.firstToken t = kw_vn)

/-- Outcome of a load: the final document, or the failure, the zero-based
number of the line that raised it and the document at that moment. -/
inductive LoadResult (F : Type) where
  | ok (doc : Loader F)
  | failed (e : Failure) (line : Nat) (doc : Loader F)
deriving DecidableEq

/-- The `while` loop of `LoadFile` over the remaining lines; `k` is the number
of lines already read. -/
def loadLoop {F : Type} (stod : Str → Option F) : List Str → Nat → Loader F → LoadResult F
  | [], _, st => LoadResult.ok st
  | curline :: rest, k, st =>
    match processLine stod st curline with
    | Except.error e => LoadResult.failed e k st
    | Except.ok st1 => loadLoop stod rest (k + 1) st1

/-- Models `Loader::LoadFile` on an opened file whose lines are `lines`, called
on a loader whose members hold `prior`: the members are cleared, then the lines
are read one by one. -/
def LoadFile {F : Type} (stod : Str → Option F) (prior : Loader F) (lines : List Str) :
    LoadResult F :=
  loadLoop stod lines 0
    { prior with
      strMesh := [], strMaterial := [], strMaterialPath := [], strSmoothShading := [],
      LoadedVertices := [], LoadedTriangles := [], strNormals := [], strTextures := [] }

/-- The text `w` is a non-empty word without space or tab that `stod` parses:
what the `v` branch needs of a coordinate written by the driver. -/
def ParsableWord {F : Type} (stod : Str → Option F) (w : Str) : Prop :=
  w ≠ [] ∧ (∀ c ∈ w, algorithm.isBlank c = false) ∧ (stod w).isSome = true

instance {F : Type} (stod : Str → Option F) (w : Str) : Decidable (ParsableWord stod w) :=
  inferInstanceAs (Decidable
    (w ≠ [] ∧ (∀ c ∈ w, algorithm.isBlank c = false) ∧ (stod w).isSome = true))

/-- The output loop of `main` in `loadprint.cpp`, one list entry per emitted
line; `fmt` is the stream formatting of a coordinate. -/
def emitLines {F : Type} (fmt : F → Str) (d : Loader F) : List Str :=
  (if d.strMaterialPath ≠ [] then [d.strMaterialPath] else []) ++
  (if d.strMesh ≠ [] then [d.strMesh] else []) ++
  d.LoadedVertices.map (fun v => ['v', ' '] ++ fmt v.X ++ [' '] ++ fmt v.Y ++ [' '] ++ fmt v.Z) ++
  d.strTextures ++
  d.strNormals ++
  [d.strMaterial] ++
  (if d.strSmoothShading ≠ [] then [d.strSmoothShading] else []) ++
  d.LoadedTriangles.map (fun t => t.strVersion)

/-- A one-digit stand-in for `std::stod`, used to run the loader on examples. -/
def stodDigit (s : Str) : Option (Fin 10) :=
  match s with
  | [c] => if h : c.toNat - 48 < 10 then (if c.isDigit then some ⟨c.toNat - 48, h⟩ else none) else none
  | _ => none

/-- Formatting that matches `stodDigit`. -/
def fmtDigit (d : Fin 10) : Str := [Char.ofNat (48 + d.val)]

/-- A lossy formatting: every coordinate is written as `0`. -/
def fmtZero (_d : Fin 10) : Str := ['0']

/-- A loader state holding three positions and nothing else. -/
def threePositions : Loader (Fin 10) :=
  { strMesh := [], strMaterial := [], strSmoothShading := [],
    LoadedVertices := [⟨0, 0, 0⟩, ⟨1, 0, 0⟩, ⟨0, 1, 0⟩],
    LoadedTriangles := [], strMaterialPath := [], strNormals := [], strTextures := [] }

/-- The scenario input: three positions and the face `f 1 2 3`. -/
def scenarioLines : List Str :=
  ["v 0 0 0".toList, "v 1 0 0".toList, "v 0 1 0".toList, "f 1 2 3".toList]

/-- An input with two `usemtl` lines. -/
def twoMaterialLines : List Str :=
  ["v 0 0 0".toList, "usemtl a".toList, "v 1 0 0".toList, "usemtl b".toList,
    "v 0 1 0".toList, "f 1 2 3".toList]

/-- The document after the first three lines of `twoMaterialLines`. -/
def twoMaterialDoc : Loader (Fin 10) :=
  { strMesh := [], strMaterial := "usemtl a".toList, strSmoothShading := [],
    LoadedVertices := [⟨0, 0, 0⟩, ⟨1, 0, 0⟩],
    LoadedTriangles := [], strMaterialPath := [], strNormals := [], strTextures := [] }

/-- The document `LoadFile` builds from the lines `v 0 0 0`, `f 1 1 1`. -/
def repeatedIndexDoc : Loader (Fin 10) :=
  { strMesh := [], strMaterial := [], strSmoothShading := [],
    LoadedVertices := [⟨0, 0, 0⟩],
    LoadedTriangles := [{ array := [0], strVersion := "f 1 1 1".toList }],
    strMaterialPath := [], strNormals := [], strTextures := [] }

/-- The document `LoadFile` builds from the single line `f 1 2 3`. -/
def noPositionsDoc : Loader (Fin 10) :=
  { strMesh := [], strMaterial := [], strSmoothShading := [],
    LoadedVertices := [],
    LoadedTriangles := [{ array := [0, 1, 2], strVersion := "f 1 2 3".toList }],
    strMaterialPath := [], strNormals := [], strTextures := [] }

/-- An input in which a position follows a face with relative indices. -/
def interleavedLines : List Str :=
  ["v 0 0 0".toList, "v 1 0 0".toList, "v 0 1 0".toList, "f -1 -2 -3".toList,
    "v 1 1 1".toList]

/-- The document `LoadFile` builds from `interleavedLines`. -/
def interleavedDoc : Loader (Fin 10) :=
  { strMesh := [], strMaterial := [], strSmoothShading := [],
    LoadedVertices := [⟨0, 0, 0⟩, ⟨1, 0, 0⟩, ⟨0, 1, 0⟩, ⟨1, 1, 1⟩],
    LoadedTriangles := [{ array := [0, 1, 2], strVersion := "f -1 -2 -3".toList }],
    strMaterialPath := [], strNormals := [], strTextures := [] }

/-- The document `LoadFile` builds from the lines emitted for `interleavedDoc`. -/
def interleavedReloaded : Loader (Fin 10) :=
  { strMesh := [], strMaterial := [], strSmoothShading := [],
    LoadedVertices := [⟨0, 0, 0⟩, ⟨1, 0, 0⟩, ⟨0, 1, 0⟩, ⟨1, 1, 1⟩],
    LoadedTriangles := [{ array := [1, 2, 3], strVersion := "f -1 -2 -3".toList }],
    strMaterialPath := [], strNormals := [], strTextures := [] }

/-- An input with every kind of stored line. -/
def taggedLines : List Str :=
  ["mtllib m.mtl".toList, " o obj".toList, "v 0 0 0".toList, "vt 0 1".toList,
    "vn 0 0 1".toList, "usemtl wood".toList, "vt 1 1".toList, "s off".toList]

/-- The document `LoadFile` builds from `taggedLines`. -/
def taggedDoc : Loader (Fin 10) :=
  { strMesh := " o obj".toList, strMaterial := "usemtl wood".toList,
    strSmoothShading := "s off".toList,
    LoadedVertices := [⟨0, 0, 0⟩], LoadedTriangles := [],
    strMaterialPath := "mtllib m.mtl".toList, strNormals := ["vn 0 0 1".toList],
    strTextures := ["vt 0 1".toList, "vt 1 1".toList] }

/-- The document `LoadFile` builds from the lines `v 0 0 0`, `f 1x 1 1`. -/
def junkIndexDoc : Loader (Fin 10) :=
  { strMesh := [], strMaterial := [], strSmoothShading := [],
    LoadedVertices := [⟨0, 0, 0⟩],
    LoadedTriangles := [{ array := [0], strVersion := "f 1x 1 1".toList }],
    strMaterialPath := [], strNormals := [], strTextures := [] }

/-- A small input: three positions, a normal, a comment and two faces. -/
def sampleLines : List Str :=
  ["v 0 0 0".toList, "vn 0 0 1".toList, "v 1 0 0".toList, "v 0 1 0".toList,
    "# a comment".toList, "f 1 2 3".toList, "f -1 -2 -3".toList]

/-- The document `LoadFile` builds from `sampleLines`. -/
def sampleDoc : Loader (Fin 10) :=
  { strMesh := [], strMaterial := [], strSmoothShading := [],
    LoadedVertices := [⟨0, 0, 0⟩, ⟨1, 0, 0⟩, ⟨0, 1, 0⟩],
    LoadedTriangles :=
      [{ array := [0, 1, 2], strVersion := "f 1 2 3".toList },
        { array := [0, 1, 2], strVersion := "f -1 -2 -3".toList }],
    strMaterialPath := [], strNormals := ["vn 0 0 1".toList], strTextures := [] }

end objl

deriving instance DecidableEq for Except


/-! ## Lemmas on the string helpers -/

namespace objl

namespace algorithm

theorem isBlank_iff (c : Char) : isBlank c = true ↔ c = ' ' ∨ c = '\t' := by
  simp [isBlank, blanks]

theorem drop_length_takeWhile (p : Char → Bool) (s : Str) :
    s.drop (s.takeWhile p).length = s.dropWhile p := by
  induction s with
  | nil => rfl
  | cons c cs ih =>
    by_cases h : p c = true
    · simp [List.takeWhile_cons, List.dropWhile_cons, h, ih]
    · simp [List.takeWhile_cons, List.dropWhile_cons, h]

theorem take_length_takeWhile (p : Char → Bool) (s : Str) :
    s.take (s.takeWhile p).length = s.takeWhile p := by
  induction s with
  | nil => rfl
  | cons c cs ih =>
    by_cases h : p c = true
    · simp [List.takeWhile_cons, h, ih]
    · simp [List.takeWhile_cons, h]

/-- The scan `findAt p` stops after the longest run of characters failing `p`. -/
theorem findAt_eq (p q : Char → Bool) (hq : ∀ c, q c = !p c) (s : Str) (k : Nat) :
    findAt p s k =
      if s.dropWhile q = [] then none else some (k + (s.takeWhile q).length) := by
  induction s generalizing k with
  | nil => simp [findAt]
  | cons c cs ih =>
    by_cases h : p c = true
    · simp [findAt, List.takeWhile_cons, List.dropWhile_cons, h, hq]
    · have h2 : p c = false := by simpa using h
      simp only [findAt, h2, List.takeWhile_cons, List.dropWhile_cons, hq, Bool.not_false,
        if_true, Bool.false_eq_true, if_false, ih (k + 1), List.length_cons]
      split
      · rfl
      · congr 1; omega

theorem find_first_not_of_blanks (s : Str) (k : Nat) :
    find_first_not_of s blanks (some k) =
      if (s.drop k).dropWhile isBlank = [] then none
      else some (k + ((s.drop k).takeWhile isBlank).length) := by
  unfold find_first_not_of
  exact findAt_eq _ isBlank (fun c => by simp [isBlank]) _ _

theorem find_first_of_blanks (s : Str) (k : Nat) :
    find_first_of s blanks (some k) =
      if (s.drop k).dropWhile (fun c => !isBlank c) = [] then none
      else some (k + ((s.drop k).takeWhile (fun c => !isBlank c)).length) := by
  unfold find_first_of
  exact findAt_eq _ (fun c => !isBlank c) (fun c => by simp [isBlank]) _ _

/-- What `firstToken` returns: the leading blanks are skipped and the run of
non-blank characters that follows is taken. -/
theorem firstToken_eq (l : Str) :
    firstToken l = (l.dropWhile isBlank).takeWhile (fun c => !isBlank c) := by
  unfold firstToken
  by_cases hl : l = []
  · simp [hl]
  · simp only [hl, ne_eq, not_false_eq_true, if_true]
    rw [find_first_not_of_blanks]
    simp only [List.drop_zero, Nat.zero_add]
    by_cases h1 : l.dropWhile isBlank = []
    · simp [h1]
    · simp only [h1, if_false]
      rw [find_first_of_blanks, drop_length_takeWhile]
      by_cases h2 : (l.dropWhile isBlank).dropWhile (fun c => !isBlank c) = []
      · simp only [h2, if_true, drop_length_takeWhile]
        have := List.takeWhile_append_dropWhile (fun c => !isBlank c) (l.dropWhile isBlank)
        rw [h2, List.append_nil] at this
        exact this.symm
      · simp only [h2, if_false, substr, drop_length_takeWhile, Nat.add_sub_cancel_left]
        exact take_length_takeWhile _ _

theorem rdropWhile_eq_take (p : Char → Bool) (r : Str) :
    r.rdropWhile p = r.take (r.length - (r.reverse.takeWhile p).length) := by
  have h := List.takeWhile_append_dropWhile p r.reverse
  have hr : r = (r.reverse.dropWhile p).reverse ++ (r.reverse.takeWhile p).reverse := by
    have := congrArg List.reverse h
    rw [List.reverse_append, List.reverse_reverse] at this
    exact this.symm
  have hlen : r.length - (r.reverse.takeWhile p).length = (r.reverse.dropWhile p).reverse.length := by
    have := congrArg List.length h
    rw [List.length_append, List.length_reverse] at this
    rw [List.length_reverse]
    omega
  rw [hlen]
  conv_rhs => rw [hr]
  simp [List.rdropWhile]

theorem takeWhile_reverse_append (p : Char → Bool) (pre r : Str)
    (h : ∃ c ∈ r, p c = false) :
    (pre ++ r).reverse.takeWhile p = r.reverse.takeWhile p := by
  rw [List.reverse_append, List.takeWhile_append]
  have hne : (r.reverse.takeWhile p).length ≠ r.reverse.length := by
    intro heq
    obtain ⟨c, hc, hpc⟩ := h
    have hall : r.reverse.takeWhile p = r.reverse :=
      (List.takeWhile_sublist p).eq_of_length heq
    have := (List.takeWhile_eq_self_iff.mp hall) c (by simpa using hc)
    simp [hpc] at this
  rw [if_neg hne]

theorem takeWhile_length_lt (p : Char → Bool) (r : Str) (h : ∃ c ∈ r, p c = false) :
    (r.takeWhile p).length < r.length := by
  rcases Nat.lt_or_ge (r.takeWhile p).length r.length with hlt | hge
  · exact hlt
  · exfalso
    have hle : (r.takeWhile p).length ≤ r.length := (List.takeWhile_sublist p).length_le
    obtain ⟨c, hc, hpc⟩ := h
    have hall : r.takeWhile p = r :=
      (List.takeWhile_sublist p).eq_of_length (Nat.le_antisymm hle hge)
    have := (List.takeWhile_eq_self_iff.mp hall) c hc
    simp [hpc] at this

theorem head_dropWhile_false (p : Char → Bool) (r : Str) (h : r.dropWhile p ≠ []) :
    ∃ c ∈ r.dropWhile p, p c = false := by
  induction r with
  | nil => simp at h
  | cons c cs ih =>
    by_cases hc : p c = true
    · simp only [List.dropWhile_cons, hc, if_true] at h ⊢
      exact ih h
    · refine ⟨c, ?_, by simpa using hc⟩
      simp [List.dropWhile_cons, hc]

/-- What `tail` returns: leading blanks, the first token and the blanks after it
are dropped, and trailing blanks are removed from what is left. -/
theorem tail_eq (l : Str) :
    tail l =
      (((l.dropWhile isBlank).dropWhile (fun c => !isBlank c)).dropWhile isBlank).rdropWhile
        isBlank := by
  unfold tail
  rw [find_first_not_of_blanks]
  simp only [List.drop_zero, Nat.zero_add]
  by_cases h1 : l.dropWhile isBlank = []
  · simp [h1, find_first_of, find_first_not_of]
  · simp only [h1, if_false]
    rw [find_first_of_blanks, drop_length_takeWhile]
    by_cases h2 : (l.dropWhile isBlank).dropWhile (fun c => !isBlank c) = []
    · simp [h2, find_first_not_of]
    · simp only [h2, if_false]
      have hd2 : l.drop ((l.takeWhile isBlank).length +
          ((l.dropWhile isBlank).takeWhile (fun c => !isBlank c)).length) =
          (l.dropWhile isBlank).dropWhile (fun c => !isBlank c) := by
        rw [← List.drop_drop, drop_length_takeWhile, drop_length_takeWhile]
      rw [find_first_not_of_blanks, hd2]
      by_cases h3 : ((l.dropWhile isBlank).dropWhile (fun c => !isBlank c)).dropWhile isBlank = []
      · simp [h3]
      · simp only [h3, if_false]
        generalize hts : (l.takeWhile isBlank).length +
          ((l.dropWhile isBlank).takeWhile (fun c => !isBlank c)).length +
          (((l.dropWhile isBlank).dropWhile (fun c => !isBlank c)).takeWhile isBlank).length = ts
        generalize hr3 : ((l.dropWhile isBlank).dropWhile (fun c => !isBlank c)).dropWhile
          isBlank = r3 at h3 ⊢
        have hd3 : l.drop ts = r3 := by
          rw [← hts, ← List.drop_drop, hd2, drop_length_takeWhile, hr3]
        have hex : ∃ c ∈ r3, isBlank c = false := by
          rw [← hr3]; exact head_dropWhile_false _ _ (by rw [hr3]; exact h3)
        have hl : l = l.take ts ++ r3 := by rw [← hd3, List.take_append_drop]
        have hex2 : ∃ c ∈ r3.reverse, isBlank c = false := by
          obtain ⟨c, hc, hb⟩ := hex
          exact ⟨c, by simpa using hc, hb⟩
        have hj : l.reverse.takeWhile isBlank = r3.reverse.takeWhile isBlank := by
          conv_lhs => rw [hl]
          exact takeWhile_reverse_append _ _ _ hex
        have hjlt := takeWhile_length_lt isBlank r3.reverse hex2
        have hlen : l.length = ts + r3.length := by
          have := congrArg List.length hd3
          rw [List.length_drop] at this
          have hpos : 0 < r3.length := List.length_pos.mpr h3
          omega
        have hne : ¬ l.reverse.dropWhile isBlank = [] := by
          intro hnil
          have := List.takeWhile_append_dropWhile isBlank l.reverse
          rw [hnil, List.append_nil, hj] at this
          have h4 := congrArg List.length this
          simp only [List.length_reverse] at h4 hjlt
          omega
        unfold find_last_not_of
        rw [findAt_eq _ isBlank (fun c => by simp [isBlank])]
        simp only [hne, if_false, Nat.zero_add, substr, hd3, hj, rdropWhile_eq_take]
        congr 1
        simp only [List.length_reverse] at hjlt
        omega

/-! ### `split`: the iteration bound is never reached -/

/-- One more iteration than `in.size() - i` changes nothing: from every state
the loop can reach (`temp` is empty whenever the token is), the loop has ended
by then. -/
theorem splitLoop_fuel_succ (inp token : Str) (fuel i : Nat) (temp : Str) (out : List Str)
    (hfuel : inp.length - i ≤ fuel) (hinv : token ≠ [] ∨ temp = []) :
    splitLoop inp token (fuel + 1) i temp out = splitLoop inp token fuel i temp out := by
  induction fuel generalizing i temp out with
  | zero =>
    have h : ¬ i < inp.length := by omega
    simp [splitLoop, h]
  | succ n ih =>
    conv_lhs => rw [splitLoop]
    conv_rhs => rw [splitLoop]
    by_cases h : i < inp.length
    · simp only [dif_pos h]
      by_cases htest : substr inp i token.length = token
      · simp only [if_pos htest]
        by_cases ht : temp = []
        · simp only [ht, ne_eq, not_true_eq_false, if_false]
          exact ih (i + 1) [] _ (by omega) (Or.inr rfl)
        · simp only [ne_eq, ht, not_false_eq_true, if_true]
          have htok : token ≠ [] := by
            rcases hinv with h1 | h1
            · exact h1
            · exact absurd h1 ht
          have hpos : 0 < token.length := List.length_pos.mpr htok
          exact ih (i + token.length) [] _ (by omega) (Or.inr rfl)
      · simp only [if_neg htest]
        by_cases hlast : i + token.length ≥ inp.length
        · simp only [if_pos hlast]
        · simp only [if_neg hlast]
          have htok : token ≠ [] := by
            intro h0
            apply htest
            simp [h0, substr]
          exact ih (i + 1) _ _ (by omega) (Or.inl htok)
    · simp only [dif_neg h]

/-- Any bound of at least `in.size()` iterations gives the result of `split`. -/
theorem splitLoop_enough_fuel (inp token : Str) (extra : Nat) :
    splitLoop inp token (inp.length + extra) 0 [] [] = split inp token := by
  induction extra with
  | zero => rfl
  | succ n ih =>
    rw [← ih, ← Nat.add_assoc]
    exact splitLoop_fuel_succ inp token _ 0 [] [] (by omega) (Or.inr rfl)

/-! ### `split` with a one-character token -/

/-- The loop of `split`, started anywhere with enough iterations left, pushes
exactly the entries that `splitFrom` lists. -/
theorem splitLoop_single (inp : Str) (c : Char) (fuel i : Nat) (temp : Str) (out : List Str)
    (hfuel : inp.length - i ≤ fuel) :
    splitLoop inp [c] fuel i temp out = out ++ splitFrom c (inp.drop i) temp := by
  induction fuel generalizing i temp out with
  | zero =>
    have : inp.drop i = [] := List.drop_eq_nil_of_le (by omega)
    simp [splitLoop, this, splitFrom]
  | succ n ih =>
    unfold splitLoop
    by_cases h : i < inp.length
    · have hd : inp.drop i = inp[i] :: inp.drop (i + 1) := List.drop_eq_getElem_cons h
      have htest : substr inp i 1 = [inp[i]] := by
        unfold substr; rw [hd]; rfl
      simp only [List.length_singleton]
      rw [dif_pos h]
      simp only [htest]
      rw [hd]
      simp only [splitFrom]
      by_cases hc : inp[i] = c
      · have heq : [inp[i]] = [c] := by rw [hc]
        rw [if_pos heq, if_pos hc]
        by_cases ht : temp = []
        · rw [if_neg (by simpa using ht), ih (i + 1) temp _ (by omega), ht]
          simp
        · rw [if_pos ht, ih (i + 1) [] _ (by omega)]
          simp
      · have hne : ¬ [inp[i]] = [c] := by simpa using hc
        rw [if_neg hne, if_neg hc]
        by_cases hlast : i + 1 ≥ inp.length
        · have h0 : inp.drop (i + 1) = [] := List.drop_eq_nil_of_le hlast
          rw [if_pos hlast, if_pos h0]
        · have h0 : inp.drop (i + 1) ≠ [] := by
            intro h0
            have := congrArg List.length h0
            rw [List.length_drop, List.length_nil] at this
            omega
          rw [if_neg hlast, if_neg h0]
          exact ih (i + 1) _ _ (by omega)
    · have : inp.drop i = [] := List.drop_eq_nil_of_le (by omega)
      simp [h, this, splitFrom]

theorem split_single (inp : Str) (c : Char) : split inp [c] = splitFrom c inp [] := by
  unfold split
  rw [splitLoop_single inp c inp.length 0 [] [] (by omega)]
  simp

theorem splitFrom_append_sep (c : Char) (a rest temp : Str) (ha : ∀ x ∈ a, x ≠ c) :
    splitFrom c (a ++ c :: rest) temp = (temp ++ a) :: splitFrom c rest [] := by
  induction a generalizing temp with
  | nil => simp [splitFrom]
  | cons x xs ih =>
    have hx : x ≠ c := ha x (by simp)
    have hxs : ∀ y ∈ xs, y ≠ c := fun y hy => ha y (by simp [hy])
    have hne : xs ++ c :: rest ≠ [] := by simp
    rw [List.cons_append, splitFrom, if_neg hx, if_neg hne, ih _ hxs]
    simp

theorem splitFrom_last (c : Char) (a temp : Str) (ha : ∀ x ∈ a, x ≠ c) (hne : a ≠ []) :
    splitFrom c a temp = [temp ++ a] := by
  induction a generalizing temp with
  | nil => exact absurd rfl hne
  | cons x xs ih =>
    have hx : x ≠ c := ha x (by simp)
    have hxs : ∀ y ∈ xs, y ≠ c := fun y hy => ha y (by simp [hy])
    rw [splitFrom, if_neg hx]
    by_cases h0 : xs = []
    · rw [if_pos h0, h0]
    · rw [if_neg h0, ih _ hxs h0]
      simp

/-- The first entry `split` produces for a non-empty text and a one-character
token is the part of the text before the first occurrence of the token. -/
theorem split_single_head (tok : Str) (c : Char) (hne : tok ≠ []) :
    ∃ more, split tok [c] = tok.takeWhile (fun x => x != c) :: more := by
  rw [split_single]
  have hsplit := List.takeWhile_append_dropWhile (fun x => x != c) tok
  have hpre : ∀ x ∈ tok.takeWhile (fun x => x != c), x ≠ c := by
    intro x hx
    have := List.mem_takeWhile_imp hx
    simpa using this
  cases hdw : tok.dropWhile (fun x => x != c) with
  | nil =>
    rw [hdw, List.append_nil] at hsplit
    refine ⟨[], ?_⟩
    rw [hsplit]
    have := splitFrom_last c tok [] (by rw [hsplit] at hpre; exact hpre) hne
    simpa using this
  | cons y ys =>
    have hy : y = c := by
      have := List.head_dropWhile_not (fun x => x != c) tok (by rw [hdw]; simp)
      simp [hdw] at this
      exact this
    refine ⟨splitFrom c ys [], ?_⟩
    conv_lhs => rw [← hsplit, hdw, hy]
    rw [splitFrom_append_sep c _ ys [] hpre]
    simp

/-! ### `std::stoi` on decimal texts -/

theorem isDigit_not_isspace (c : Char) (h : c.isDigit = true) : isspace c = false := by
  unfold isspace
  simp only [Bool.or_eq_false_iff, decide_eq_false_iff_not]
  refine ⟨⟨⟨⟨⟨?_, ?_⟩, ?_⟩, ?_⟩, ?_⟩, ?_⟩ <;>
    (intro heq; rw [heq] at h; exact absurd h (by decide))

theorem isDigit_not_sign (c : Char) (h : c.isDigit = true) : c ≠ '-' ∧ c ≠ '+' := by
  constructor <;> (intro heq; rw [heq] at h; exact absurd h (by decide))

theorem takeWhile_isDigit_all (ds : Str) (h : ∀ c ∈ ds, c.isDigit = true) :
    ds.takeWhile Char.isDigit = ds :=
  List.takeWhile_eq_self_iff.mpr h

/-- On the decimal text of `N`, `std::stoi` returns `N` when `N` is a 32-bit
`int` and throws `out_of_range` otherwise. -/
theorem stoi_decimal (s : Str) (N : Int) (h : IsDecimalText s N) :
    stoi s =
      if N < -2147483648 ∨ 2147483647 < N then Except.error StoiError.out_of_range
      else Except.ok N := by
  unfold IsDecimalText at h
  by_cases hm : s.head? = some '-'
  · rw [if_pos hm] at h
    obtain ⟨hne, hdig, hN⟩ := h
    obtain ⟨ds, rfl⟩ : ∃ ds, s = '-' :: ds := by
      cases s with
      | nil => simp at hm
      | cons c cs => exact ⟨cs, by simp at hm; rw [hm]⟩
    simp only [List.drop_one, List.tail_cons] at hne hdig hN
    have hsp : ('-' :: ds).dropWhile isspace = '-' :: ds := by
      rw [List.dropWhile_cons_of_neg]; decide
    unfold stoi
    simp only [hsp, List.head?_cons, true_or, if_true, List.drop_one, List.tail_cons,
      takeWhile_isDigit_all ds hdig, hne, if_false, decide_True, ← hN]
  · rw [if_neg hm] at h
    obtain ⟨hne, hdig, hN⟩ := h
    obtain ⟨c, cs, rfl⟩ : ∃ c cs, s = c :: cs := by
      cases s with
      | nil => exact absurd rfl hne
      | cons c cs => exact ⟨c, cs, rfl⟩
    have hc : c.isDigit = true := hdig c (by simp)
    have hsp : (c :: cs).dropWhile isspace = c :: cs := by
      rw [List.dropWhile_cons_of_neg]; simp [isDigit_not_isspace c hc]
    have hs1 : ¬ some c = some '-' := by simpa using (isDigit_not_sign c hc).1
    have hs2 : ¬ some c = some '+' := by simpa using (isDigit_not_sign c hc).2
    unfold stoi
    simp only [hsp, List.head?_cons, hs1, hs2, or_self, if_false,
      takeWhile_isDigit_all (c :: cs) hdig, hne, decide_False, Bool.false_eq_true, ← hN]

/-- The value `getIndex` returns on the decimal text of a 32-bit `int`. -/
theorem getIndex_decimal (count : Nat) (s : Str) (N : Int) (h : IsDecimalText s N)
    (hlo : -2147483648 ≤ N) (hhi : N ≤ 2147483647) :
    getIndex count s = Except.ok (if N < 0 then (count : Int) + N else N - 1) := by
  unfold getIndex
  rw [stoi_decimal s N h]
  have : ¬ (N < -2147483648 ∨ 2147483647 < N) := by omega
  rw [if_neg this]
  simp only
  split <;> rfl

end algorithm

end objl


/-! ## Lemmas on the dispatch chain of `LoadFile` -/

namespace objl

open algorithm

theorem headD_g_firstToken (l : Str) (h : l.headD (Char.ofNat 0) = 'g') :
    (firstToken l).head? = some 'g' := by
  cases l with
  | nil => exact absurd h (by decide)
  | cons c cs =>
    have hc : c = 'g' := h
    subst hc
    rw [firstToken_eq, List.dropWhile_cons_of_neg (by decide),
      List.takeWhile_cons_of_pos (by decide)]
    rfl

/-- A line whose first token does not start with `g` is not taken by the first
branch of the chain. -/
theorem not_g_branch (l kw : Str) (h : firstToken l = kw) (hkw : kw.head? ≠ some 'g') :
    ¬ (firstToken l = kw_g ∨ l.headD (Char.ofNat 0) = 'g') := by
  rintro (hg | hg)
  · rw [h] at hg; rw [hg] at hkw; exact hkw rfl
  · have := headD_g_firstToken l hg
    rw [h] at this
    exact hkw this

/-! ### The index set and the inner loop of the `f` branch -/

theorem IntSet.mem_insert (x a : Int) (s : IntSet) :
    x ∈ IntSet.insert a s ↔ x = a ∨ x ∈ s := by
  induction s with
  | nil => simp [IntSet.insert]
  | cons y ys ih =>
    unfold IntSet.insert
    by_cases h1 : a < y
    · simp [h1]
    · by_cases h2 : a = y
      · simp [h2]
      · simp only [h1, h2, if_false, List.mem_cons, ih]
        tauto

/-- One round of the inner loop on a non-empty token: the index is read from
the part of the token before its first `/`. -/
theorem faceLoop_cons (count : Nat) (tok : Str) (rest : List Str) (arr : IntSet)
    (hne : tok ≠ []) :
    faceLoop count (tok :: rest) arr =
      match getIndex count (beforeSlash tok) with
      | Except.error _ => Except.error Failure.InvalidIndex
      | Except.ok index => faceLoop count rest (IntSet.insert index arr) := by
  obtain ⟨more, hmore⟩ := split_single_head tok '/' hne
  rw [faceLoop, hmore]
  rfl

/-- The inner loop fails only with `InvalidIndex` or on the subscript
`svert[0]`. -/
theorem faceLoop_error (count : Nat) (toks : List Str) (arr : IntSet) (e : Failure)
    (h : faceLoop count toks arr = Except.error e) :
    e = Failure.InvalidIndex ∨ e = Failure.SubscriptOutOfRange := by
  induction toks generalizing arr with
  | nil => simp [faceLoop] at h
  | cons tok rest ih =>
    rw [faceLoop] at h
    split at h
    · injection h with h; exact Or.inr h.symm
    · split at h
      · injection h with h; exact Or.inl h.symm
      · exact ih _ h

theorem getIndex_ok (count : Nat) (s : Str) (index : Int)
    (h : getIndex count s = Except.ok index) :
    ∃ N, stoi s = Except.ok N ∧ index = if N < 0 then (count : Int) + N else N - 1 := by
  unfold getIndex at h
  cases hs : stoi s with
  | error e => rw [hs] at h; cases h
  | ok N =>
    rw [hs] at h
    refine ⟨N, rfl, ?_⟩
    simp only at h
    split at h <;> injection h with h <;> rw [← h]
    · rw [if_pos (by assumption)]
    · rw [if_neg (by assumption)]

/-- When every token is consistent with `count` positions, the inner loop only
adds indices in `[0, count)`. -/
theorem faceLoop_in_range (count : Nat) (toks : List Str) (arr out : IntSet)
    (htok : ∀ tok ∈ toks, indexInRange count tok = true)
    (harr : ∀ i ∈ arr, 0 ≤ i ∧ i < (count : Int))
    (h : faceLoop count toks arr = Except.ok out) :
    ∀ i ∈ out, 0 ≤ i ∧ i < (count : Int) := by
  induction toks generalizing arr with
  | nil =>
    simp only [faceLoop] at h
    injection h with h; subst h; exact harr
  | cons tok rest ih =>
    have hr := htok tok (by simp)
    rw [faceLoop] at h
    unfold indexInRange at hr
    split at h
    · cases h
    · rename_i s0 more hsplit
      rw [hsplit] at hr
      simp only at hr
      split at h
      · cases h
      · rename_i index hidx
        obtain ⟨N, hN, hval⟩ := getIndex_ok count s0 index hidx
        rw [hN] at hr
        simp only [decide_eq_true_eq] at hr
        apply ih _ (fun t ht => htok t (by simp [ht])) _ h
        intro i hi
        rcases (IntSet.mem_insert i index arr).mp hi with rfl | hi
        · rw [hval]
          split <;> omega
        · exact harr i hi

section dispatch

variable {F : Type} (stod : Str → Option F) (st : Loader F) (l : Str)

theorem processLine_g (h : firstToken l = kw_g ∨ l.headD (Char.ofNat 0) = 'g') :
    processLine stod st l = Except.ok st := by
  unfold processLine
  rw [if_pos h]

theorem processLine_o (h : firstToken l = kw_o) :
    processLine stod st l =
      if st.strMesh = [] then Except.ok { st with strMesh := l }
      else Except.error Failure.DuplicateField := by
  unfold processLine
  rw [if_neg (not_g_branch l kw_o h (by decide)), if_pos h]

theorem processLine_v (h : firstToken l = kw_v) :
    processLine stod st l =
      match split (tail l) [' '] with
      | a :: b :: c :: _ =>
        match stod a, stod b, stod c with
        | some x, some y, some z =>
          Except.ok { st with LoadedVertices := st.LoadedVertices ++ [⟨x, y, z⟩] }
        | _, _, _ => Except.error Failure.MalformedVertex
      | _ => Except.error Failure.SubscriptOutOfRange := by
  unfold processLine
  rw [if_neg (not_g_branch l kw_v h (by decide)), h]
  simp +decide only [if_true, if_false]

theorem processLine_vt (h : firstToken l = kw_vt) :
    processLine stod st l = Except.ok { st with strTextures := st.strTextures ++ [l] } := by
  unfold processLine
  rw [if_neg (not_g_branch l kw_vt h (by decide)), h]
  simp +decide only [if_true, if_false]

theorem processLine_vn (h : firstToken l = kw_vn) :
    processLine stod st l = Except.ok { st with strNormals := st.strNormals ++ [l] } := by
  unfold processLine
  rw [if_neg (not_g_branch l kw_vn h (by decide)), h]
  simp +decide only [if_true, if_false]

theorem processLine_f (h : firstToken l = kw_f) :
    processLine stod st l =
      if (split (tail l) [' ']).length = 3 then
        match faceLoop st.LoadedVertices.length (split (tail l) [' ']) [] with
        | Except.error e => Except.error e
        | Except.ok arr =>
          Except.ok { st with
            LoadedTriangles := st.LoadedTriangles ++ [{ array := arr, strVersion := l }] }
      else Except.error Failure.MalformedFace := by
  unfold processLine
  rw [if_neg (not_g_branch l kw_f h (by decide)), h]
  simp +decide only [if_true, if_false]

theorem processLine_usemtl (h : firstToken l = kw_usemtl) :
    processLine stod st l =
      if st.strMaterial = [] then Except.ok { st with strMaterial := l }
      else Except.error Failure.DuplicateField := by
  unfold processLine
  rw [if_neg (not_g_branch l kw_usemtl h (by decide)), h]
  simp +decide only [if_true, if_false]

theorem processLine_s (h : firstToken l = kw_s) :
    processLine stod st l =
      if st.strSmoothShading = [] then Except.ok { st with strSmoothShading := l }
      else Except.error Failure.DuplicateField := by
  unfold processLine
  rw [if_neg (not_g_branch l kw_s h (by decide)), h]
  simp +decide only [if_true, if_false]

theorem processLine_mtllib (h : firstToken l = kw_mtllib) :
    processLine stod st l =
      if st.strMaterialPath = [] then Except.ok { st with strMaterialPath := l }
      else Except.error Failure.DuplicateField := by
  unfold processLine
  rw [if_neg (not_g_branch l kw_mtllib h (by decide)), h]
  simp +decide only [if_true, if_false]

theorem processLine_other (hg : ¬ (firstToken l = kw_g ∨ l.headD (Char.ofNat 0) = 'g'))
    (ho : firstToken l ≠ kw_o) (hv : firstToken l ≠ kw_v) (hvt : firstToken l ≠ kw_vt)
    (hvn : firstToken l ≠ kw_vn) (hf : firstToken l ≠ kw_f) (hu : firstToken l ≠ kw_usemtl)
    (hs : firstToken l ≠ kw_s) (hm : firstToken l ≠ kw_mtllib) :
    processLine stod st l = Except.ok st := by
  unfold processLine
  rw [if_neg hg, if_neg ho, if_neg hv, if_neg hvt, if_neg hvn, if_neg hf, if_neg hu, if_neg hs,
    if_neg hm]

/-- The first token of a line taken by the first branch is none of the other
keywords. -/
theorem firstToken_of_g_branch (h : firstToken l = kw_g ∨ l.headD (Char.ofNat 0) = 'g')
    (kw : Str) (hkw : kw.head? ≠ some 'g') : firstToken l ≠ kw :=
  fun heq => not_g_branch l kw heq hkw h

/-- Effect of one successfully processed line on the sizes of the two lists:
a `v` line adds one position, an `f` line one face, no other line adds any. -/
theorem processLine_lengths (st1 : Loader F) (h : processLine stod st l = Except.ok st1) :
    st1.LoadedVertices.length =
        st.LoadedVertices.length + (if firstToken l = kw_v then 1 else 0) ∧
    st1.LoadedTriangles.length =
        st.LoadedTriangles.length + (if firstToken l = kw_f then 1 else 0) := by
  by_cases hg : firstToken l = kw_g ∨ l.headD (Char.ofNat 0) = 'g'
  · rw [processLine_g stod st l hg] at h
    injection h with h; subst h
    simp [firstToken_of_g_branch l hg kw_v (by decide), firstToken_of_g_branch l hg kw_f (by decide)]
  by_cases ho : firstToken l = kw_o
  · rw [processLine_o stod st l ho] at h
    split at h
    · injection h with h; subst h; simp +decide [ho]
    · cases h
  by_cases hv : firstToken l = kw_v
  · rw [processLine_v stod st l hv] at h
    split at h
    · split at h
      · injection h with h; subst h; simp +decide [hv]
      · cases h
    · cases h
  by_cases hvt : firstToken l = kw_vt
  · rw [processLine_vt stod st l hvt] at h
    injection h with h; subst h; simp +decide [hvt]
  by_cases hvn : firstToken l = kw_vn
  · rw [processLine_vn stod st l hvn] at h
    injection h with h; subst h; simp +decide [hvn]
  by_cases hf : firstToken l = kw_f
  · rw [processLine_f stod st l hf] at h
    split at h
    · split at h
      · cases h
      · injection h with h; subst h; simp +decide [hf]
    · cases h
  by_cases hu : firstToken l = kw_usemtl
  · rw [processLine_usemtl stod st l hu] at h
    split at h
    · injection h with h; subst h; simp +decide [hu]
    · cases h
  by_cases hs : firstToken l = kw_s
  · rw [processLine_s stod st l hs] at h
    split at h
    · injection h with h; subst h; simp +decide [hs]
    · cases h
  by_cases hm : firstToken l = kw_mtllib
  · rw [processLine_mtllib stod st l hm] at h
    split at h
    · injection h with h; subst h; simp +decide [hm]
    · cases h
  rw [processLine_other stod st l hg ho hv hvt hvn hf hu hs hm] at h
  injection h with h; subst h
  simp [hv, hf]

/-- The process of one line succeeds exactly along one of the transitions of
`Step`. -/
theorem processLine_ok_iff (st1 : Loader F) :
    processLine stod st l = Except.ok st1 ↔ Step stod st l st1 := by
  constructor
  · intro h
    by_cases hg : firstToken l = kw_g ∨ l.headD (Char.ofNat 0) = 'g'
    · rw [processLine_g stod st l hg] at h
      injection h with h; subst h
      exact Step.group st l hg
    by_cases ho : firstToken l = kw_o
    · rw [processLine_o stod st l ho] at h
      split at h
      · injection h with h; subst h; exact Step.object st l ho (by assumption)
      · cases h
    by_cases hv : firstToken l = kw_v
    · rw [processLine_v stod st l hv] at h
      split at h
      · split at h
        · injection h with h; subst h
          exact Step.vertex st l _ _ _ _ _ _ _ hv (by assumption) (by assumption)
            (by assumption) (by assumption)
        · cases h
      · cases h
    by_cases hvt : firstToken l = kw_vt
    · rw [processLine_vt stod st l hvt] at h
      injection h with h; subst h; exact Step.texture st l hvt
    by_cases hvn : firstToken l = kw_vn
    · rw [processLine_vn stod st l hvn] at h
      injection h with h; subst h; exact Step.normal st l hvn
    by_cases hf : firstToken l = kw_f
    · rw [processLine_f stod st l hf] at h
      split at h
      · split at h
        · cases h
        · injection h with h; subst h
          exact Step.face st l _ hf (by assumption) (by assumption)
      · cases h
    by_cases hu : firstToken l = kw_usemtl
    · rw [processLine_usemtl stod st l hu] at h
      split at h
      · injection h with h; subst h; exact Step.material st l hu (by assumption)
      · cases h
    by_cases hs : firstToken l = kw_s
    · rw [processLine_s stod st l hs] at h
      split at h
      · injection h with h; subst h; exact Step.smoothing st l hs (by assumption)
      · cases h
    by_cases hm : firstToken l = kw_mtllib
    · rw [processLine_mtllib stod st l hm] at h
      split at h
      · injection h with h; subst h; exact Step.library st l hm (by assumption)
      · cases h
    rw [processLine_other stod st l hg ho hv hvt hvn hf hu hs hm] at h
    injection h with h; subst h
    exact Step.other st l hg ho hv hvt hvn hf hu hs hm
  · intro h
    cases h with
    | group h => exact processLine_g stod st l h
    | object h he => rw [processLine_o stod st l h, if_pos he]
    | vertex a b c more x y z h hsplit hx hy hz =>
      rw [processLine_v stod st l h, hsplit]
      simp only [hx, hy, hz]
    | texture h => exact processLine_vt stod st l h
    | normal h => exact processLine_vn stod st l h
    | face arr h hlen hloop =>
      rw [processLine_f stod st l h, if_pos hlen, hloop]
    | material h he => rw [processLine_usemtl stod st l h, if_pos he]
    | smoothing h he => rw [processLine_s stod st l h, if_pos he]
    | library h he => rw [processLine_mtllib stod st l h, if_pos he]
    | other hg ho hv hvt hvn hf hu hs hm =>
      exact processLine_other stod st l hg ho hv hvt hvn hf hu hs hm

/-- A successful step only appends to the position list and to the face list. -/
theorem Step.grows (st1 : Loader F) (h : Step stod st l st1) :
    (∃ vs, st1.LoadedVertices = st.LoadedVertices ++ vs) ∧
    (∃ ts, st1.LoadedTriangles = st.LoadedTriangles ++ ts) := by
  cases h <;> first
    | exact ⟨⟨[], (List.append_nil _).symm⟩, ⟨[], (List.append_nil _).symm⟩⟩
    | exact ⟨⟨_, rfl⟩, ⟨[], (List.append_nil _).symm⟩⟩
    | exact ⟨⟨[], (List.append_nil _).symm⟩, ⟨_, rfl⟩⟩

/-- What a successfully processed `f` line does. -/
theorem processLine_f_ok (st1 : Loader F) (hf : firstToken l = kw_f)
    (h : processLine stod st l = Except.ok st1) :
    ∃ arr, (split (tail l) [' ']).length = 3 ∧
      faceLoop st.LoadedVertices.length (split (tail l) [' ']) [] = Except.ok arr ∧
      st1 = { st with
        LoadedTriangles := st.LoadedTriangles ++ [{ array := arr, strVersion := l }] } := by
  rw [processLine_f stod st l hf] at h
  split at h
  · split at h
    · cases h
    · injection h with h
      exact ⟨_, by assumption, by assumption, h.symm⟩
  · cases h

end dispatch

/-! ## Lemmas on the line loop -/

section loop

variable {F : Type} (stod : Str → Option F)

theorem loadLoop_lengths (lines : List Str) (k : Nat) (st d : Loader F)
    (h : loadLoop stod lines k st = LoadResult.ok d) :
    d.LoadedVertices.length =
        st.LoadedVertices.length + lines.countP (fun l => firstToken l = kw_v) ∧
    d.LoadedTriangles.length =
        st.LoadedTriangles.length + lines.countP (fun l => firstToken l = kw_f) := by
  induction lines generalizing k st with
  | nil =>
    simp only [loadLoop] at h
    injection h with h; subst h; simp
  | cons l ls ih =>
    rw [loadLoop] at h
    cases hp : processLine stod st l with
    | error e => rw [hp] at h; cases h
    | ok st1 =>
      rw [hp] at h
      obtain ⟨h1, h2⟩ := ih (k + 1) st1 h
      obtain ⟨h3, h4⟩ := processLine_lengths stod st l st1 hp
      rw [h1, h2, h3, h4, List.countP_cons, List.countP_cons]
      constructor
      · by_cases hv : firstToken l = kw_v
        · simp [hv]; omega
        · simp [hv]
      · by_cases hf : firstToken l = kw_f
        · simp [hf]; omega
        · simp [hf]

theorem loadLoop_grows (lines : List Str) (k : Nat) (st d : Loader F)
    (h : loadLoop stod lines k st = LoadResult.ok d) :
    (∃ vs, d.LoadedVertices = st.LoadedVertices ++ vs) ∧
    (∃ ts, d.LoadedTriangles = st.LoadedTriangles ++ ts) := by
  induction lines generalizing k st with
  | nil =>
    simp only [loadLoop] at h
    injection h with h; subst h
    exact ⟨⟨[], by simp⟩, ⟨[], by simp⟩⟩
  | cons x xs ih =>
    rw [loadLoop] at h
    cases hp : processLine stod st x with
    | error e => rw [hp] at h; cases h
    | ok st1 =>
      rw [hp] at h
      obtain ⟨⟨vs, hvs⟩, ⟨ts, hts⟩⟩ := ih (k + 1) st1 h
      obtain ⟨⟨vs1, hvs1⟩, ⟨ts1, hts1⟩⟩ :=
        Step.grows stod st x st1 ((processLine_ok_iff stod st x st1).mp hp)
      exact ⟨⟨vs1 ++ vs, by rw [hvs, hvs1, List.append_assoc]⟩,
        ⟨ts1 ++ ts, by rw [hts, hts1, List.append_assoc]⟩⟩

/-- The loop over `xs ++ ys` runs over `xs` and, when that succeeds, goes on
with `ys`. -/
theorem loadLoop_append (xs ys : List Str) (k : Nat) (st : Loader F) :
    loadLoop stod (xs ++ ys) k st =
      match loadLoop stod xs k st with
      | LoadResult.ok st1 => loadLoop stod ys (k + xs.length) st1
      | LoadResult.failed e j d => LoadResult.failed e j d := by
  induction xs generalizing k st with
  | nil => simp [loadLoop]
  | cons x xs ih =>
    rw [List.cons_append, loadLoop, loadLoop]
    cases hp : processLine stod st x with
    | error e => rfl
    | ok st1 =>
      simp only
      rw [ih (k + 1) st1, List.length_cons]
      have : k + 1 + xs.length = k + (xs.length + 1) := by omega
      rw [this]

/-- Where a failed loop stopped: the lines before the failing one were read
successfully and gave the reported document, on which the failing line fails. -/
theorem loadLoop_failed (lines : List Str) (k0 k : Nat) (st d : Loader F) (e : Failure)
    (h : loadLoop stod lines k0 st = LoadResult.failed e k d) :
    ∃ pre l post, lines = pre ++ l :: post ∧ k = k0 + pre.length ∧
      loadLoop stod pre k0 st = LoadResult.ok d ∧ processLine stod d l = Except.error e := by
  induction lines generalizing k0 st with
  | nil => simp [loadLoop] at h
  | cons x xs ih =>
    rw [loadLoop] at h
    cases hp : processLine stod st x with
    | error e1 =>
      rw [hp] at h
      injection h with h1 h2 h3
      subst h1 h2 h3
      exact ⟨[], x, xs, rfl, rfl, rfl, hp⟩
    | ok st1 =>
      rw [hp] at h
      obtain ⟨pre, l, post, hl, hk, hpre, hfail⟩ := ih (k0 + 1) st1 h
      refine ⟨x :: pre, l, post, by rw [hl]; rfl, by rw [hk, List.length_cons]; omega, ?_, hfail⟩
      rw [loadLoop, hp]
      exact hpre

/-- The successful result of the loop does not depend on the line counter. -/
theorem loadLoop_ok_counter (lines : List Str) (k k1 : Nat) (st d : Loader F)
    (h : loadLoop stod lines k st = LoadResult.ok d) :
    loadLoop stod lines k1 st = LoadResult.ok d := by
  induction lines generalizing k k1 st with
  | nil => simpa [loadLoop] using h
  | cons x xs ih =>
    rw [loadLoop] at h ⊢
    cases hp : processLine stod st x with
    | error e => rw [hp] at h; cases h
    | ok st1 =>
      rw [hp] at h
      exact ih (k + 1) (k1 + 1) st1 h

end loop

/-! ## Lemmas on the four singular members -/

section singular

variable {F : Type} (stod : Str → Option F)

theorem firstToken_nil : firstToken [] = [] := by decide

theorem ne_nil_of_firstToken (l kw : Str) (h : firstToken l = kw) (hkw : kw ≠ []) : l ≠ [] := by
  intro hl
  rw [hl, firstToken_nil] at h
  exact hkw h.symm

/-- A line with one of the four keywords fails with `DuplicateField` when its
member is already set. -/
theorem processLine_duplicate (kw : Str)
    (hkw : kw = kw_o ∨ kw = kw_usemtl ∨ kw = kw_s ∨ kw = kw_mtllib)
    (st : Loader F) (l : Str) (hl : firstToken l = kw) (hset : singularField kw st ≠ []) :
    processLine stod st l = Except.error Failure.DuplicateField := by
  rcases hkw with rfl | rfl | rfl | rfl
  · rw [processLine_o stod st l hl, if_neg (by simpa [singularField] using hset)]
  · rw [processLine_usemtl stod st l hl]
    rw [if_neg]
    revert hset; simp +decide [singularField]
  · rw [processLine_s stod st l hl]
    rw [if_neg]
    revert hset; simp +decide [singularField]
  · rw [processLine_mtllib stod st l hl]
    rw [if_neg]
    revert hset; simp +decide [singularField]

/-- A member that is set stays set. -/
theorem Step.singular_stays (kw : Str) (st st1 : Loader F) (l : Str)
    (h : Step stod st l st1) (hset : singularField kw st ≠ []) :
    singularField kw st1 ≠ [] := by
  unfold singularField at hset ⊢
  cases h <;> first | exact hset | (split_ifs at hset ⊢ <;> simp_all)

/-- After a line with one of the four keywords has been read, its member is
set. -/
theorem Step.singular_set (kw : Str)
    (hkw : kw = kw_o ∨ kw = kw_usemtl ∨ kw = kw_s ∨ kw = kw_mtllib)
    (st st1 : Loader F) (l : Str) (h : Step stod st l st1) (hl : firstToken l = kw) :
    singularField kw st1 ≠ [] := by
  have hne : l ≠ [] := ne_nil_of_firstToken l kw hl (by
    rcases hkw with rfl | rfl | rfl | rfl <;> decide)
  have hstep := (processLine_ok_iff stod st l st1).mpr h
  rcases hkw with rfl | rfl | rfl | rfl
  · rw [processLine_o stod st l hl] at hstep
    split at hstep
    · injection hstep with hstep; subst hstep; simpa [singularField] using hne
    · cases hstep
  · rw [processLine_usemtl stod st l hl] at hstep
    split at hstep
    · injection hstep with hstep; subst hstep; simpa +decide [singularField] using hne
    · cases hstep
  · rw [processLine_s stod st l hl] at hstep
    split at hstep
    · injection hstep with hstep; subst hstep; simpa +decide [singularField] using hne
    · cases hstep
  · rw [processLine_mtllib stod st l hl] at hstep
    split at hstep
    · injection hstep with hstep; subst hstep; simpa +decide [singularField] using hne
    · cases hstep

/-- After a successful run of the loop, the member of a keyword that was set
before or occurs on one of the lines is set. -/
theorem loadLoop_singular_set (kw : Str)
    (hkw : kw = kw_o ∨ kw = kw_usemtl ∨ kw = kw_s ∨ kw = kw_mtllib)
    (lines : List Str) (k : Nat) (st d : Loader F)
    (h : loadLoop stod lines k st = LoadResult.ok d)
    (hocc : singularField kw st ≠ [] ∨ ∃ l ∈ lines, firstToken l = kw) :
    singularField kw d ≠ [] := by
  induction lines generalizing k st with
  | nil =>
    simp only [loadLoop] at h
    injection h with h; subst h
    rcases hocc with h1 | ⟨l, hl, _⟩
    · exact h1
    · simp at hl
  | cons x xs ih =>
    rw [loadLoop] at h
    cases hp : processLine stod st x with
    | error e => rw [hp] at h; cases h
    | ok st1 =>
      rw [hp] at h
      have hstep := (processLine_ok_iff stod st x st1).mp hp
      apply ih (k + 1) st1 h
      rcases hocc with h1 | ⟨l, hl, hft⟩
      · exact Or.inl (Step.singular_stays stod kw st st1 x hstep h1)
      · rcases List.mem_cons.mp hl with rfl | hl
        · exact Or.inl (Step.singular_set stod kw hkw st st1 l hstep hft)
        · exact Or.inr ⟨l, hl, hft⟩

/-- A list with two entries satisfying `p` splits at an entry satisfying `p`
that has another one before it. -/
theorem exists_second_of_countP (p : Str → Bool) (lines : List Str)
    (h : 2 ≤ lines.countP p) :
    ∃ pre l post, lines = pre ++ l :: post ∧ p l = true ∧ ∃ l1 ∈ pre, p l1 = true := by
  induction lines with
  | nil => simp at h
  | cons x xs ih =>
    by_cases hx : p x = true
    · rw [List.countP_cons_of_pos _ _ hx] at h
      have hpos : 0 < xs.countP p := by omega
      obtain ⟨y, hy, hpy⟩ := List.countP_pos_iff.mp hpos
      obtain ⟨s, t, hst⟩ := List.append_of_mem hy
      exact ⟨x :: s, y, t, by rw [hst]; rfl, hpy, x, by simp, hx⟩
    · rw [List.countP_cons_of_neg _ _ hx] at h
      obtain ⟨pre, l, post, hl, hpl, l1, hl1, hpl1⟩ := ih h
      exact ⟨x :: pre, l, post, by rw [hl]; rfl, hpl, l1, by simp [hl1], hpl1⟩

end singular

end objl

/-! ## Lemmas on reading back the emitted lines -/

namespace objl

open algorithm

section emitted

variable {F : Type}

theorem firstToken_cons_blank (c : Char) (rest : Str) (hc : isBlank c = false) :
    firstToken (c :: ' ' :: rest) = [c] := by
  rw [firstToken_eq, List.dropWhile_cons_of_neg (by simp [hc]),
    List.takeWhile_cons_of_pos (by simp [hc]), List.takeWhile_cons_of_neg (by decide)]

theorem dropWhile_isBlank_word (w rest : Str) (hne : w ≠ [])
    (hw : ∀ c ∈ w, isBlank c = false) : (w ++ rest).dropWhile isBlank = w ++ rest := by
  cases w with
  | nil => exact absurd rfl hne
  | cons c cs =>
    rw [List.cons_append, List.dropWhile_cons_of_neg]
    simp [hw c (by simp)]

theorem rdropWhile_isBlank_word (pre w : Str) (hne : w ≠ [])
    (hw : ∀ c ∈ w, isBlank c = false) : (pre ++ w).rdropWhile isBlank = pre ++ w := by
  have hlast := List.dropLast_append_getLast hne
  have hmem : w.getLast hne ∈ w := List.getLast_mem hne
  rw [← hlast, ← List.append_assoc, List.rdropWhile_concat_neg]
  simp [hw _ hmem]

theorem tail_position_line (a b c : Str) (ha : a ≠ []) (hc : c ≠ [])
    (hab : ∀ x ∈ a, isBlank x = false) (hcb : ∀ x ∈ c, isBlank x = false) :
    tail (['v', ' '] ++ a ++ [' '] ++ b ++ [' '] ++ c) = a ++ [' '] ++ b ++ [' '] ++ c := by
  rw [tail_eq]
  have h1 : (['v', ' '] ++ a ++ [' '] ++ b ++ [' '] ++ c) =
      'v' :: ' ' :: (a ++ ([' '] ++ b ++ [' '] ++ c)) := by simp
  rw [h1, List.dropWhile_cons_of_neg (by decide), List.dropWhile_cons_of_pos (by decide),
    List.dropWhile_cons_of_neg (by decide), List.dropWhile_cons_of_pos (by decide),
    dropWhile_isBlank_word a _ ha hab]
  have h2 : a ++ ([' '] ++ b ++ [' '] ++ c) = (a ++ [' '] ++ b ++ [' ']) ++ c := by simp
  rw [h2, rdropWhile_isBlank_word _ c hc hcb]

theorem not_space_of_not_blank (w : Str) (hw : ∀ c ∈ w, isBlank c = false) :
    ∀ c ∈ w, c ≠ ' ' := by
  intro c hc heq
  have := hw c hc
  rw [heq] at this
  exact absurd this (by decide)

theorem split_three_words (a b c : Str) (hc : c ≠ [])
    (hab : ∀ x ∈ a, isBlank x = false) (hbb : ∀ x ∈ b, isBlank x = false)
    (hcb : ∀ x ∈ c, isBlank x = false) :
    split (a ++ [' '] ++ b ++ [' '] ++ c) [' '] = [a, b, c] := by
  rw [split_single]
  have h1 : a ++ [' '] ++ b ++ [' '] ++ c = a ++ ' ' :: (b ++ ' ' :: c) := by simp
  rw [h1, splitFrom_append_sep ' ' a _ [] (not_space_of_not_blank a hab),
    splitFrom_append_sep ' ' b _ [] (not_space_of_not_blank b hbb),
    splitFrom_last ' ' c [] (not_space_of_not_blank c hcb) hc]
  simp

end emitted

section reload

variable {F : Type} (stod : Str → Option F)

theorem loadLoop_append_ok (xs ys : List Str) (st s1 s2 : Loader F)
    (h1 : loadLoop stod xs 0 st = LoadResult.ok s1)
    (h2 : loadLoop stod ys 0 s1 = LoadResult.ok s2) :
    loadLoop stod (xs ++ ys) 0 st = LoadResult.ok s2 := by
  rw [loadLoop_append, h1]
  exact loadLoop_ok_counter stod ys 0 _ s1 s2 h2

theorem loadLoop_single_ok (l : Str) (st s1 : Loader F)
    (h : processLine stod st l = Except.ok s1) :
    loadLoop stod [l] 0 st = LoadResult.ok s1 := by
  simp only [loadLoop, h]

theorem loadLoop_cons_ok (l : Str) (ls : List Str) (st s1 s2 : Loader F)
    (h : processLine stod st l = Except.ok s1)
    (h2 : loadLoop stod ls 0 s1 = LoadResult.ok s2) :
    loadLoop stod (l :: ls) 0 st = LoadResult.ok s2 :=
  loadLoop_append_ok stod [l] ls st s1 s2 (loadLoop_single_ok stod l st s1 h) h2

theorem processLine_nil (st : Loader F) : processLine stod st [] = Except.ok st :=
  processLine_other stod st [] (by decide) (by decide) (by decide) (by decide) (by decide)
    (by decide) (by decide) (by decide) (by decide)

/-- Reading back texture lines appends them to the texture list. -/
theorem loadLoop_textures (ts : List Str) (st : Loader F)
    (h : ∀ t ∈ ts, firstToken t = kw_vt) :
    loadLoop stod ts 0 st = LoadResult.ok { st with strTextures := st.strTextures ++ ts } := by
  induction ts generalizing st with
  | nil => simp [loadLoop]
  | cons t ts ih =>
    refine loadLoop_cons_ok stod t ts st _ _ (processLine_vt stod st t (h t (by simp))) ?_
    rw [ih _ (fun x hx => h x (by simp [hx]))]
    simp

/-- Reading back normal lines appends them to the normal list. -/
theorem loadLoop_normals (ts : List Str) (st : Loader F)
    (h : ∀ t ∈ ts, firstToken t = kw_vn) :
    loadLoop stod ts 0 st = LoadResult.ok { st with strNormals := st.strNormals ++ ts } := by
  induction ts generalizing st with
  | nil => simp [loadLoop]
  | cons t ts ih =>
    refine loadLoop_cons_ok stod t ts st _ _ (processLine_vn stod st t (h t (by simp))) ?_
    rw [ih _ (fun x hx => h x (by simp [hx]))]
    simp

/-- Reading back the emitted position lines, each coordinate of which was
written as a word that parses, appends as many positions as were emitted. -/
theorem loadLoop_positions (fmt : F → Str) (vs : List (Vector3 F)) (st : Loader F)
    (hfmt : ∀ v ∈ vs, ParsableWord stod (fmt v.X) ∧ ParsableWord stod (fmt v.Y) ∧
      ParsableWord stod (fmt v.Z)) :
    ∃ ws : List (Vector3 F), ws.length = vs.length ∧
      loadLoop stod
          (vs.map (fun v => ['v', ' '] ++ fmt v.X ++ [' '] ++ fmt v.Y ++ [' '] ++ fmt v.Z))
          0 st =
        LoadResult.ok { st with LoadedVertices := st.LoadedVertices ++ ws } := by
  induction vs generalizing st with
  | nil => exact ⟨[], rfl, by simp [loadLoop]⟩
  | cons v vs ih =>
    obtain ⟨⟨hx1, hx2, hx3⟩, ⟨_, hy2, hy3⟩, ⟨hz1, hz2, hz3⟩⟩ := hfmt v (by simp)
    obtain ⟨x, hx⟩ := Option.isSome_iff_exists.mp hx3
    obtain ⟨y, hy⟩ := Option.isSome_iff_exists.mp hy3
    obtain ⟨z, hz⟩ := Option.isSome_iff_exists.mp hz3
    have hline : processLine stod st
        (['v', ' '] ++ fmt v.X ++ [' '] ++ fmt v.Y ++ [' '] ++ fmt v.Z) =
        Except.ok { st with LoadedVertices := st.LoadedVertices ++ [⟨x, y, z⟩] } := by
      have hft : firstToken (['v', ' '] ++ fmt v.X ++ [' '] ++ fmt v.Y ++ [' '] ++ fmt v.Z) =
          kw_v := by
        have : (['v', ' '] ++ fmt v.X ++ [' '] ++ fmt v.Y ++ [' '] ++ fmt v.Z) =
            'v' :: ' ' :: (fmt v.X ++ [' '] ++ fmt v.Y ++ [' '] ++ fmt v.Z) := by simp
        rw [this, firstToken_cons_blank 'v' _ (by decide)]
        rfl
      rw [processLine_v stod st _ hft, tail_position_line _ _ _ hx1 hz1 hx2 hz2,
        split_three_words _ _ _ hz1 hx2 hy2 hz2]
      simp only [hx, hy, hz]
    obtain ⟨ws, hlen, hws⟩ := ih { st with LoadedVertices := st.LoadedVertices ++ [⟨x, y, z⟩] }
      (fun w hw => hfmt w (by simp [hw]))
    refine ⟨⟨x, y, z⟩ :: ws, by simp [hlen], ?_⟩
    rw [List.map_cons]
    refine loadLoop_cons_ok stod _ _ st _ _ hline ?_
    rw [hws]
    simp

/-- Reading back face lines that resolve, against the positions now loaded, to
the index sets stored with them appends those faces. -/
theorem loadLoop_faces (ts : List Triangle) (st : Loader F)
    (h : ∀ t ∈ ts, firstToken t.strVersion = kw_f ∧
      (split (tail t.strVersion) [' ']).length = 3 ∧
      faceLoop st.LoadedVertices.length (split (tail t.strVersion) [' ']) [] =
        Except.ok t.array) :
    loadLoop stod (ts.map (fun t => t.strVersion)) 0 st =
      LoadResult.ok { st with LoadedTriangles := st.LoadedTriangles ++ ts } := by
  induction ts generalizing st with
  | nil => simp [loadLoop]
  | cons t ts ih =>
    rw [List.map_cons]
    obtain ⟨hf, hlen, hloop⟩ := h t (by simp)
    have hline : processLine stod st t.strVersion =
        Except.ok { st with LoadedTriangles := st.LoadedTriangles ++ [t] } := by
      rw [processLine_f stod st _ hf, if_pos hlen, hloop]
    refine loadLoop_cons_ok stod _ _ st _ _ hline ?_
    rw [ih { st with LoadedTriangles := st.LoadedTriangles ++ [t] }
      (fun x hx => h x (by simp [hx]))]
    simp

end reload

section invariants

variable {F : Type} (stod : Str → Option F)

theorem Step.wellTagged (st st1 : Loader F) (l : Str) (h : Step stod st l st1)
    (hw : st.WellTagged) : st1.WellTagged := by
  obtain ⟨h1, h2, h3, h4, h5, h6⟩ := hw
  cases h with
  | group _ => exact ⟨h1, h2, h3, h4, h5, h6⟩
  | object h _ => exact ⟨Or.inr h, h2, h3, h4, h5, h6⟩
  | vertex _ _ _ _ _ _ _ _ _ _ _ => exact ⟨h1, h2, h3, h4, h5, h6⟩
  | texture h =>
    refine ⟨h1, h2, h3, h4, ?_, h6⟩
    intro t ht
    rcases List.mem_append.mp ht with ht | ht
    · exact h5 t ht
    · rw [List.mem_singleton.mp ht]; exact h
  | normal h =>
    refine ⟨h1, h2, h3, h4, h5, ?_⟩
    intro t ht
    rcases List.mem_append.mp ht with ht | ht
    · exact h6 t ht
    · rw [List.mem_singleton.mp ht]; exact h
  | face _ _ _ _ => exact ⟨h1, h2, h3, h4, h5, h6⟩
  | material h _ => exact ⟨h1, Or.inr h, h3, h4, h5, h6⟩
  | smoothing h _ => exact ⟨h1, h2, Or.inr h, h4, h5, h6⟩
  | library h _ => exact ⟨h1, h2, h3, Or.inr h, h5, h6⟩
  | other _ _ _ _ _ _ _ _ _ => exact ⟨h1, h2, h3, h4, h5, h6⟩

theorem loadLoop_wellTagged (lines : List Str) (k : Nat) (st d : Loader F)
    (h : loadLoop stod lines k st = LoadResult.ok d) (hw : st.WellTagged) :
    d.WellTagged := by
  induction lines generalizing k st with
  | nil =>
    simp only [loadLoop] at h
    injection h with h; subst h; exact hw
  | cons x xs ih =>
    rw [loadLoop] at h
    cases hp : processLine stod st x with
    | error e => rw [hp] at h; cases h
    | ok st1 =>
      rw [hp] at h
      exact ih (k + 1) st1 h
        (Step.wellTagged stod st st1 x ((processLine_ok_iff stod st x st1).mp hp) hw)

/-- Where the faces of a loaded document come from: each one that was not there
at the start was appended by an `f` line of the input, resolved against the
positions loaded before that line. -/
theorem loadLoop_face_origin (lines : List Str) (k : Nat) (st d : Loader F)
    (h : loadLoop stod lines k st = LoadResult.ok d) :
    ∀ t ∈ d.LoadedTriangles, t ∈ st.LoadedTriangles ∨
      ∃ pre post, lines = pre ++ t.strVersion :: post ∧
        firstToken t.strVersion = kw_f ∧
        (split (tail t.strVersion) [' ']).length = 3 ∧
        faceLoop (st.LoadedVertices.length + pre.countP (fun x => firstToken x = kw_v))
          (split (tail t.strVersion) [' ']) [] = Except.ok t.array := by
  induction lines generalizing k st with
  | nil =>
    simp only [loadLoop] at h
    injection h with h; subst h
    exact fun t ht => Or.inl ht
  | cons x xs ih =>
    rw [loadLoop] at h
    cases hp : processLine stod st x with
    | error e => rw [hp] at h; cases h
    | ok st1 =>
      rw [hp] at h
      intro t ht
      have hlen := (processLine_lengths stod st x st1 hp).1
      rcases ih (k + 1) st1 h t ht with hin | ⟨pre, post, hxs, hf, h3, hloop⟩
      · by_cases hxf : firstToken x = kw_f
        · obtain ⟨arr, harr3, harr, hst1⟩ := processLine_f_ok stod st x st1 hxf hp
          rw [hst1] at hin
          rcases List.mem_append.mp hin with hin | hin
          · exact Or.inl hin
          · rw [List.mem_singleton.mp hin]
            exact Or.inr ⟨[], xs, rfl, hxf, harr3, by simpa using harr⟩
        · left
          have hstep := (processLine_ok_iff stod st x st1).mp hp
          cases hstep <;> first | exact hin | exact absurd (by assumption) hxf
      · right
        refine ⟨x :: pre, post, by rw [hxs]; rfl, hf, h3, ?_⟩
        rw [List.countP_cons, ← hloop, hlen]
        congr 1
        simp only [decide_eq_true_eq]
        omega

end invariants

section singularReload

variable {F : Type} (stod : Str → Option F)

theorem loadLoop_library (p : Str) (st : Loader F) (hst : st.strMaterialPath = [])
    (hp : p = [] ∨ firstToken p = kw_mtllib) :
    loadLoop stod (if p ≠ [] then [p] else []) 0 st =
      LoadResult.ok { st with strMaterialPath := p } := by
  by_cases h0 : p = []
  · subst h0
    simp only [ne_eq, not_true_eq_false, if_false, loadLoop, ← hst]
  · rw [if_pos h0]
    have hft : firstToken p = kw_mtllib := hp.resolve_left h0
    exact loadLoop_single_ok stod p st _ (by rw [processLine_mtllib stod st p hft, if_pos hst])

theorem loadLoop_object (p : Str) (st : Loader F) (hst : st.strMesh = [])
    (hp : p = [] ∨ firstToken p = kw_o) :
    loadLoop stod (if p ≠ [] then [p] else []) 0 st =
      LoadResult.ok { st with strMesh := p } := by
  by_cases h0 : p = []
  · subst h0
    simp only [ne_eq, not_true_eq_false, if_false, loadLoop, ← hst]
  · rw [if_pos h0]
    have hft : firstToken p = kw_o := hp.resolve_left h0
    exact loadLoop_single_ok stod p st _ (by rw [processLine_o stod st p hft, if_pos hst])

theorem loadLoop_smoothing (p : Str) (st : Loader F) (hst : st.strSmoothShading = [])
    (hp : p = [] ∨ firstToken p = kw_s) :
    loadLoop stod (if p ≠ [] then [p] else []) 0 st =
      LoadResult.ok { st with strSmoothShading := p } := by
  by_cases h0 : p = []
  · subst h0
    simp only [ne_eq, not_true_eq_false, if_false, loadLoop, ← hst]
  · rw [if_pos h0]
    have hft : firstToken p = kw_s := hp.resolve_left h0
    exact loadLoop_single_ok stod p st _ (by rw [processLine_s stod st p hft, if_pos hst])

/-- The material line is written even when it is empty; read back, an empty
line changes nothing. -/
theorem loadLoop_material (p : Str) (st : Loader F) (hst : st.strMaterial = [])
    (hp : p = [] ∨ firstToken p = kw_usemtl) :
    loadLoop stod [p] 0 st = LoadResult.ok { st with strMaterial := p } := by
  by_cases h0 : p = []
  · subst h0
    refine loadLoop_single_ok stod [] st _ ?_
    rw [processLine_nil, ← hst]
  · have hft : firstToken p = kw_usemtl := hp.resolve_left h0
    exact loadLoop_single_ok stod p st _ (by rw [processLine_usemtl stod st p hft, if_pos hst])

end singularReload

theorem rdropWhile_append_blanks (r w : Str) (hw : ∀ c ∈ w, isBlank c = true) :
    (r ++ w).rdropWhile isBlank = r.rdropWhile isBlank := by
  unfold List.rdropWhile
  rw [List.reverse_append, List.dropWhile_append_of_pos]
  intro c hc
  exact hw c (List.mem_reverse.mp hc)

theorem rdropWhile_of_getLast (r : Str)
    (h : ∀ c, r.getLast? = some c → isBlank c = false) :
    r.rdropWhile isBlank = r := by
  rcases List.eq_nil_or_concat r with rfl | ⟨init, x, rfl⟩
  · rfl
  · rw [List.concat_eq_append] at h ⊢
    rw [List.rdropWhile_concat_neg]
    have := h x (by simp)
    simp [this]

theorem dropWhile_of_head (p : Char → Bool) (r : Str)
    (h : ∀ c, r.head? = some c → p c = false) : r.dropWhile p = r := by
  cases r with
  | nil => rfl
  | cons x xs =>
    rw [List.dropWhile_cons_of_neg]
    simp [h x rfl]

section fields

variable {F : Type} (stod : Str → Option F)

/-- What a successfully processed `v` line does. -/
theorem processLine_v_ok (st st1 : Loader F) (l : Str) (hv : firstToken l = kw_v)
    (h : processLine stod st l = Except.ok st1) :
    ∃ a b c more x y z, split (tail l) [' '] = a :: b :: c :: more ∧
      stod a = some x ∧ stod b = some y ∧ stod c = some z ∧
      st1 = { st with LoadedVertices := st.LoadedVertices ++ [⟨x, y, z⟩] } := by
  rw [processLine_v stod st l hv] at h
  split at h
  · split at h
    · injection h with h
      exact ⟨_, _, _, _, _, _, _, by assumption, by assumption, by assumption, by assumption,
        h.symm⟩
    · cases h
  · cases h

/-- A `v` line stops only with `MalformedVertex` (a field that does not parse) or
on a subscript of `spos` past the end (fewer than three fields). -/
theorem processLine_v_error (st : Loader F) (l : Str) (hv : firstToken l = kw_v)
    (e : Failure) (h : processLine stod st l = Except.error e) :
    (e = Failure.MalformedVertex ∧ 3 ≤ (split (tail l) [' ']).length) ∨
    (e = Failure.SubscriptOutOfRange ∧ (split (tail l) [' ']).length < 3) := by
  rw [processLine_v stod st l hv] at h
  split at h
  · rename_i a b c more hs
    split at h
    · cases h
    · injection h with h
      exact Or.inl ⟨h.symm, by rw [hs]; simp⟩
  · rename_i hs
    injection h with h
    refine Or.inr ⟨h.symm, ?_⟩
    rcases hsp : split (tail l) [' '] with _ | ⟨a, _ | ⟨b, _ | ⟨c, more⟩⟩⟩
    · simp
    · simp
    · simp
    · exact absurd hsp (hs a b c more)

/-- A `v` line whose tail splits into at least three fields: it stops with
`MalformedVertex` exactly when one of the first three fields does not parse, and
otherwise appends the one position they give, whatever fields follow. -/
theorem processLine_v_three_fields (st : Loader F) (l a b c : Str) (more : List Str)
    (hv : firstToken l = kw_v) (hs : split (tail l) [' '] = a :: b :: c :: more) :
    (processLine stod st l = Except.error Failure.MalformedVertex ↔
      ¬ ∃ x y z, stod a = some x ∧ stod b = some y ∧ stod c = some z) ∧
    (∀ x y z, stod a = some x → stod b = some y → stod c = some z →
      processLine stod st l =
        Except.ok { st with LoadedVertices := st.LoadedVertices ++ [⟨x, y, z⟩] }) := by
  have hok : ∀ x y z, stod a = some x → stod b = some y → stod c = some z →
      processLine stod st l =
        Except.ok { st with LoadedVertices := st.LoadedVertices ++ [⟨x, y, z⟩] } := by
    intro x y z hx hy hz
    exact (processLine_ok_iff stod st l _).mpr (Step.vertex st l a b c more x y z hv hs hx hy hz)
  refine ⟨⟨?_, ?_⟩, hok⟩
  · rintro h ⟨x, y, z, hx, hy, hz⟩
    rw [hok x y z hx hy hz] at h
    cases h
  · intro h
    cases hp : processLine stod st l with
    | error e =>
      rcases processLine_v_error stod st l hv e hp with ⟨he, _⟩ | ⟨_, hlen⟩
      · rw [he]
      · rw [hs] at hlen
        simp only [List.length_cons] at hlen
        omega
    | ok st1 =>
      obtain ⟨a1, b1, c1, more1, x, y, z, hs1, hx, hy, hz, _⟩ :=
        processLine_v_ok stod st st1 l hv hp
      rw [hs] at hs1
      injection hs1 with h1 hs1
      injection hs1 with h2 hs1
      injection hs1 with h3 _
      subst h1 h2 h3
      exact absurd ⟨x, y, z, hx, hy, hz⟩ h

/-- Effect of one successfully processed line on the two lists of raw lines and
on the four singular members. -/
theorem processLine_fields (st st1 : Loader F) (l : Str)
    (h : processLine stod st l = Except.ok st1) :
    st1.strTextures = st.strTextures ++ (if firstToken l = kw_vt then [l] else []) ∧
    st1.strNormals = st.strNormals ++ (if firstToken l = kw_vn then [l] else []) ∧
    ∀ kw, kw = kw_o ∨ kw = kw_usemtl ∨ kw = kw_s ∨ kw = kw_mtllib →
      singularField kw st1 = (if firstToken l = kw then l else singularField kw st) ∧
      (firstToken l = kw → singularField kw st = []) := by
  have hstep := (processLine_ok_iff stod st l st1).mp h
  cases hstep with
  | group hg =>
    have h1 := firstToken_of_g_branch l hg kw_vt (by decide)
    have h2 := firstToken_of_g_branch l hg kw_vn (by decide)
    refine ⟨by simp [h1], by simp [h2], ?_⟩
    intro kw hkw
    have h3 : firstToken l ≠ kw := firstToken_of_g_branch l hg kw (by
      rcases hkw with rfl | rfl | rfl | rfl <;> decide)
    exact ⟨by rw [if_neg h3], fun hc => absurd hc h3⟩
  | object hf he =>
    refine ⟨by simp +decide [hf], by simp +decide [hf], ?_⟩
    intro kw hkw
    rcases hkw with rfl | rfl | rfl | rfl <;> simp +decide [hf, singularField, he]
  | vertex a b c more x y z hf _ _ _ _ =>
    refine ⟨by simp +decide [hf], by simp +decide [hf], ?_⟩
    intro kw hkw
    rcases hkw with rfl | rfl | rfl | rfl <;> simp +decide [hf, singularField]
  | texture hf =>
    refine ⟨by simp +decide [hf], by simp +decide [hf], ?_⟩
    intro kw hkw
    rcases hkw with rfl | rfl | rfl | rfl <;> simp +decide [hf, singularField]
  | normal hf =>
    refine ⟨by simp +decide [hf], by simp +decide [hf], ?_⟩
    intro kw hkw
    rcases hkw with rfl | rfl | rfl | rfl <;> simp +decide [hf, singularField]
  | face arr hf _ _ =>
    refine ⟨by simp +decide [hf], by simp +decide [hf], ?_⟩
    intro kw hkw
    rcases hkw with rfl | rfl | rfl | rfl <;> simp +decide [hf, singularField]
  | material hf he =>
    refine ⟨by simp +decide [hf], by simp +decide [hf], ?_⟩
    intro kw hkw
    rcases hkw with rfl | rfl | rfl | rfl <;> simp +decide [hf, singularField, he]
  | smoothing hf he =>
    refine ⟨by simp +decide [hf], by simp +decide [hf], ?_⟩
    intro kw hkw
    rcases hkw with rfl | rfl | rfl | rfl <;> simp +decide [hf, singularField, he]
  | library hf he =>
    refine ⟨by simp +decide [hf], by simp +decide [hf], ?_⟩
    intro kw hkw
    rcases hkw with rfl | rfl | rfl | rfl <;> simp +decide [hf, singularField, he]
  | other hg ho hv hvt hvn hf hu hs hm =>
    refine ⟨by simp [hvt], by simp [hvn], ?_⟩
    intro kw hkw
    rcases hkw with rfl | rfl | rfl | rfl <;> simp [*]

/-- After a successful run of the loop the two lists of raw lines have grown by
the `vt` lines and the `vn` lines read, in order, and each singular member
either was not assigned (no line with its keyword was read) or was empty before
and holds the one line with its keyword. -/
theorem loadLoop_fields (lines : List Str) (k : Nat) (st d : Loader F)
    (h : loadLoop stod lines k st = LoadResult.ok d) :
    d.strTextures = st.strTextures ++ lines.filter (fun l => firstToken l = kw_vt) ∧
    d.strNormals = st.strNormals ++ lines.filter (fun l => firstToken l = kw_vn) ∧
    ∀ kw, kw = kw_o ∨ kw = kw_usemtl ∨ kw = kw_s ∨ kw = kw_mtllib →
      (lines.filter (fun l => firstToken l = kw) = [] ∧
        singularField kw d = singularField kw st) ∨
      (singularField kw st = [] ∧
        ∃ l, lines.filter (fun l => firstToken l = kw) = [l] ∧ singularField kw d = l) := by
  induction lines generalizing k st with
  | nil =>
    simp only [loadLoop] at h
    injection h with h; subst h
    exact ⟨by simp, by simp, fun kw _ => Or.inl ⟨rfl, rfl⟩⟩
  | cons x xs ih =>
    rw [loadLoop] at h
    cases hp : processLine stod st x with
    | error e => rw [hp] at h; cases h
    | ok st1 =>
      rw [hp] at h
      obtain ⟨i1, i2, i3⟩ := ih (k + 1) st1 h
      obtain ⟨f1, f2, f3⟩ := processLine_fields stod st st1 x hp
      refine ⟨?_, ?_, ?_⟩
      · rw [i1, f1, List.filter_cons]
        by_cases hx : firstToken x = kw_vt <;> simp [hx]
      · rw [i2, f2, List.filter_cons]
        by_cases hx : firstToken x = kw_vn <;> simp [hx]
      · intro kw hkw
        obtain ⟨g1, g2⟩ := f3 kw hkw
        rw [List.filter_cons]
        by_cases hx : firstToken x = kw
        · have hxne : x ≠ [] := ne_nil_of_firstToken x kw hx (by
            rcases hkw with rfl | rfl | rfl | rfl <;> decide)
          rw [if_pos hx] at g1
          right
          refine ⟨g2 hx, x, ?_⟩
          rcases i3 kw hkw with ⟨j1, j2⟩ | ⟨j1, _⟩
          · simp [hx, j1, j2, g1]
          · rw [g1] at j1; exact absurd j1 hxne
        · rw [if_neg hx] at g1
          simp only [hx, decide_False, Bool.false_eq_true, if_false]
          rw [← g1]
          exact i3 kw hkw

end fields

/-- `std::stoi` throws `invalid_argument` exactly on the tokens that do not start
with an integer. -/
theorem stoi_invalid_iff (s : Str) :
    stoi s = Except.error StoiError.invalid_argument ↔ startsWithInteger s = false := by
  have key : ∀ (neg : Prop) [Decidable neg] (s2 : Str),
      ((if s2.takeWhile Char.isDigit = [] then Except.error StoiError.invalid_argument
        else
          if (if neg then -(digitsValue (s2.takeWhile Char.isDigit) : Int)
                else (digitsValue (s2.takeWhile Char.isDigit) : Int)) < -2147483648 ∨
              2147483647 < (if neg then -(digitsValue (s2.takeWhile Char.isDigit) : Int)
                else (digitsValue (s2.takeWhile Char.isDigit) : Int))
          then Except.error StoiError.out_of_range
          else Except.ok (if neg then -(digitsValue (s2.takeWhile Char.isDigit) : Int)
                else (digitsValue (s2.takeWhile Char.isDigit) : Int))) =
        (Except.error StoiError.invalid_argument : Except StoiError Int)) ↔
      (match s2 with
        | [] => false
        | c :: _ => c.isDigit) = false := by
    intro neg _ s2
    cases s2 with
    | nil => simp
    | cons c cs =>
      by_cases hc : c.isDigit = true
      · have hne : ¬ (c :: cs).takeWhile Char.isDigit = [] := by
          simp [List.takeWhile_cons, hc]
        rw [if_neg hne]
        constructor
        · intro h
          split_ifs at h <;> exact absurd h (by simp)
        · intro h
          simp only [hc] at h
          cases h
      · have hnil : (c :: cs).takeWhile Char.isDigit = [] := by
          simp [List.takeWhile_cons, hc]
        rw [if_pos hnil]
        simp [hc]
  exact key _ _

theorem getIndex_invalid_iff (count : Nat) (s : Str) :
    getIndex count s = Except.error StoiError.invalid_argument ↔
      startsWithInteger s = false := by
  rw [← stoi_invalid_iff]
  unfold getIndex
  cases hs : stoi s with
  | error e => exact Iff.rfl
  | ok v =>
    constructor
    · intro h
      simp only at h
      split_ifs at h
    · intro h; cases h

/-- On non-empty tokens the inner loop of the `f` branch can fail only with
`InvalidIndex`. -/
theorem faceLoop_error_nonempty (count : Nat) (toks : List Str) (arr : IntSet) (e : Failure)
    (hne : ∀ tok ∈ toks, tok ≠ [])
    (h : faceLoop count toks arr = Except.error e) : e = Failure.InvalidIndex := by
  induction toks generalizing arr with
  | nil => simp [faceLoop] at h
  | cons tok rest ih =>
    rw [faceLoop_cons count tok rest arr (hne tok (by simp))] at h
    split at h
    · injection h with h; exact h.symm
    · exact ih _ (fun t ht => hne t (by simp [ht])) h

/-- On non-empty tokens of which one does not start with an integer, the inner
loop of the `f` branch fails with `InvalidIndex`. -/
theorem faceLoop_invalid (count : Nat) (toks : List Str) (arr : IntSet)
    (hne : ∀ tok ∈ toks, tok ≠ [])
    (hbad : ∃ tok ∈ toks, startsWithInteger (beforeSlash tok) = false) :
    faceLoop count toks arr = Except.error Failure.InvalidIndex := by
  cases h : faceLoop count toks arr with
  | error e => rw [faceLoop_error_nonempty count toks arr e hne h]
  | ok out =>
    exfalso
    induction toks generalizing arr with
    | nil =>
      obtain ⟨tok, htok, _⟩ := hbad
      simp at htok
    | cons tok rest ih =>
      rw [faceLoop_cons count tok rest arr (hne tok (by simp))] at h
      split at h
      · cases h
      · rename_i index hidx
        obtain ⟨t, ht, hbadt⟩ := hbad
        rcases List.mem_cons.mp ht with rfl | ht
        · rw [(getIndex_invalid_iff count _).mpr hbadt] at hidx
          cases hidx
        · exact ih _ (fun t ht => hne t (by simp [ht])) ⟨t, ht, hbadt⟩ h

theorem referenceSplit_ne_nil (c : Char) (s : Str) : referenceSplit c s ≠ [] := by
  cases s with
  | nil => simp [referenceSplit]
  | cons x xs =>
    unfold referenceSplit
    split
    · simp
    · split <;> simp

theorem referenceSplit_cons_sep (c : Char) (xs : Str) :
    referenceSplit c (c :: xs) = [] :: referenceSplit c xs := by
  rw [referenceSplit, if_pos rfl]

theorem referenceSplit_cons_other (c x : Char) (xs seg : Str) (more : List Str) (hx : x ≠ c)
    (h : referenceSplit c xs = seg :: more) :
    referenceSplit c (x :: xs) = (x :: seg) :: more := by
  rw [referenceSplit, if_neg hx, h]

/-- Joining the reference split with the separator gives the text back. -/
theorem referenceSplit_join (c : Char) (s : Str) :
    List.intercalate [c] (referenceSplit c s) = s := by
  induction s with
  | nil => simp [referenceSplit, List.intercalate]
  | cons x xs ih =>
    obtain ⟨seg, more, hr⟩ := List.exists_cons_of_ne_nil (referenceSplit_ne_nil c xs)
    by_cases hx : x = c
    · subst hx
      rw [referenceSplit_cons_sep, hr]
      rw [hr] at ih
      simp only [List.intercalate, List.intersperse_cons_cons, List.flatten_cons, List.nil_append,
        List.singleton_append] at ih ⊢
      rw [ih]
    · rw [referenceSplit_cons_other c x xs seg more hx hr]
      rw [hr] at ih
      cases more with
      | nil =>
        simp only [List.intercalate, List.intersperse_singleton, List.flatten_cons, List.flatten_nil,
          List.append_nil] at ih ⊢
        rw [ih]
      | cons m ms =>
        simp only [List.intercalate, List.intersperse_cons_cons, List.flatten_cons,
          List.cons_append] at ih ⊢
        rw [ih]

/-- No segment of the reference split holds the separator. -/
theorem referenceSplit_no_sep (c : Char) (s : Str) :
    ∀ seg ∈ referenceSplit c s, c ∉ seg := by
  induction s with
  | nil => simp [referenceSplit]
  | cons x xs ih =>
    obtain ⟨seg0, more, hr⟩ := List.exists_cons_of_ne_nil (referenceSplit_ne_nil c xs)
    by_cases hx : x = c
    · subst hx
      rw [referenceSplit_cons_sep]
      intro seg hseg
      rcases List.mem_cons.mp hseg with rfl | hseg
      · simp
      · exact ih seg hseg
    · rw [referenceSplit_cons_other c x xs seg0 more hx hr]
      rw [hr] at ih
      intro seg hseg
      rcases List.mem_cons.mp hseg with rfl | hseg
      · intro hc
        rcases List.mem_cons.mp hc with h | h
        · exact hx h.symm
        · exact ih seg0 (by simp) h
      · exact ih seg (by simp [hseg])

/-- The entries `splitFrom` pushes for a non-empty unread text: the reference
split of that text, without its last segment when the text ends with the
separator, and with `temp` put before its first segment. -/
theorem splitFrom_reference (c : Char) (xs temp : Str) (hne : xs ≠ []) :
    ∃ seg more,
      (if xs.getLast? = some c then (referenceSplit c xs).dropLast else referenceSplit c xs) =
        seg :: more ∧
      splitFrom c xs temp = (temp ++ seg) :: more := by
  induction xs generalizing temp with
  | nil => exact absurd rfl hne
  | cons x xs ih =>
    by_cases h0 : xs = []
    · subst h0
      by_cases hx : x = c
      · subst hx
        refine ⟨[], [], ?_, ?_⟩
        · simp [referenceSplit]
        · simp [splitFrom]
      · refine ⟨[x], [], ?_, ?_⟩
        · have : ¬ (some x = some c) := by simpa using hx
          simp [referenceSplit, hx]
        · simp [splitFrom, hx]
    · have hlast : (x :: xs).getLast? = xs.getLast? := by
        obtain ⟨y, ys, rfl⟩ := List.exists_cons_of_ne_nil h0
        simp [List.getLast?_cons_cons]
      rw [hlast]
      by_cases hx : x = c
      · subst hx
        obtain ⟨seg, more, hT, hS⟩ := ih [] h0
        refine ⟨[], seg :: more, ?_, ?_⟩
        · rw [referenceSplit_cons_sep, ← hT]
          obtain ⟨r0, rs, hr⟩ := List.exists_cons_of_ne_nil (referenceSplit_ne_nil x xs)
          split
          · rw [hr]; rfl
          · rfl
        · rw [splitFrom, if_pos rfl, hS]
          simp
      · obtain ⟨seg, more, hT, hS⟩ := ih (temp ++ [x]) h0
        obtain ⟨r0, rs, hr⟩ := List.exists_cons_of_ne_nil (referenceSplit_ne_nil c xs)
        refine ⟨x :: seg, more, ?_, ?_⟩
        · rw [referenceSplit_cons_other c x xs r0 rs hx hr]
          rw [hr] at hT
          split at hT
          · rename_i hl
            rw [if_pos hl]
            cases rs with
            | nil => simp at hT
            | cons r1 rs1 =>
              simp only [List.dropLast_cons₂, List.cons.injEq] at hT
              obtain ⟨rfl, rfl⟩ := hT
              simp
          · rename_i hl
            rw [if_neg hl]
            simp only [List.cons.injEq] at hT
            obtain ⟨rfl, rfl⟩ := hT
            rfl
        · rw [splitFrom, if_neg hx, if_neg h0, hS]
          simp

theorem OccurInOrder.append_left (segs : List Str) (pre text : Str)
    (h : OccurInOrder segs text) : OccurInOrder segs (pre ++ text) := by
  cases segs with
  | nil => trivial
  | cons seg more =>
    obtain ⟨before, after, htext, hmore⟩ := h
    exact ⟨pre ++ before, after, by rw [htext]; simp, hmore⟩

/-- An occurrence of the token in the text from position `j` on is a window of
the scan that equals the token. -/
theorem substr_of_occurrence (inp token a b : Str) (j : Nat)
    (h : inp.drop j = a ++ token ++ b) :
    substr inp (j + a.length) token.length = token := by
  unfold substr
  rw [← List.drop_drop, h]
  simp

/-- The loop of `split`, from a state in which `temp` is the text between
positions `j` and `i` and no window starting there equals the token: the entries
still to be pushed do not hold the token, and they occur in order in the text
from position `j` on. -/
theorem splitLoop_segments (inp token : Str) (htok : token ≠ [])
    (fuel i j : Nat) (temp : Str) (out : List Str)
    (hji : j ≤ i) (hi : i ≤ inp.length) (htemp : inp.drop j = temp ++ inp.drop i)
    (hwin : ∀ p, j ≤ p → p < i → substr inp p token.length ≠ token) :
    ∃ new, splitLoop inp token fuel i temp out = out ++ new ∧
      (∀ seg ∈ new, ¬ ∃ a b, seg = a ++ token ++ b) ∧
      OccurInOrder new (inp.drop j) := by
  have htl : 0 < token.length := List.length_pos.mpr htok
  have hlen_temp : temp.length = i - j := by
    have := congrArg List.length htemp
    simp only [List.length_drop, List.length_append] at this
    omega
  induction fuel generalizing i j temp out with
  | zero => exact ⟨[], by simp [splitLoop], by simp, trivial⟩
  | succ n ih =>
    rw [splitLoop]
    by_cases h : i < inp.length
    · rw [dif_pos h]
      have hd : inp.drop i = inp[i] :: inp.drop (i + 1) := List.drop_eq_getElem_cons h
      by_cases htest : substr inp i token.length = token
      · simp only [htest, if_true]
        by_cases ht : temp = []
        · rw [if_neg (by simpa using ht)]
          obtain ⟨new, hres, hno, hord⟩ := ih (i + 1) (i + 1) temp (out ++ [[]])
            (Nat.le_refl _) (by omega) (by rw [ht]; rfl)
            (fun p hp1 hp2 => by omega) (by rw [ht]; simp)
          refine ⟨[] :: new, by rw [hres]; simp, ?_, ?_⟩
          · intro seg hseg
            rcases List.mem_cons.mp hseg with rfl | hseg
            · rintro ⟨a, b, hab⟩
              have := congrArg List.length hab
              simp only [List.length_nil, List.length_append] at this
              omega
            · exact hno seg hseg
          · refine ⟨[], inp.drop j, by simp, ?_⟩
            rw [htemp, hd]
            have : temp ++ inp[i] :: inp.drop (i + 1) =
                (temp ++ [inp[i]]) ++ inp.drop (i + 1) := by simp
            rw [this]
            exact OccurInOrder.append_left _ _ _ hord
        · rw [if_pos ht]
          have hwlen : i + token.length ≤ inp.length := by
            have := congrArg List.length htest
            simp only [substr, List.length_take, List.length_drop] at this
            omega
          obtain ⟨new, hres, hno, hord⟩ := ih (i + token.length) (i + token.length) []
            (out ++ [temp]) (Nat.le_refl _) hwlen (by simp)
            (fun p hp1 hp2 => by omega) (by simp)
          refine ⟨temp :: new, by rw [hres]; simp, ?_, ?_⟩
          · intro seg hseg
            rcases List.mem_cons.mp hseg with rfl | hseg
            · rintro ⟨a, b, hab⟩
              have hocc : inp.drop j = a ++ token ++ (b ++ inp.drop i) := by
                rw [htemp, hab]; simp
              have hw := substr_of_occurrence inp token a _ j hocc
              have hl := congrArg List.length hab
              simp only [List.length_append] at hl
              exact hwin (j + a.length) (by omega) (by omega) hw
            · exact hno seg hseg
          · refine ⟨[], inp.drop i, by rw [htemp]; simp, ?_⟩
            have hsplit : inp.drop i = token ++ inp.drop (i + token.length) := by
              conv_lhs => rw [← List.take_append_drop token.length (inp.drop i)]
              rw [List.drop_drop]
              have : (inp.drop i).take token.length = token := htest
              rw [this]
            rw [hsplit]
            exact OccurInOrder.append_left _ _ _ hord
      · simp only [htest, if_false]
        by_cases hlast : i + token.length ≥ inp.length
        · rw [if_pos hlast]
          have hsub : substr inp i token.length = inp.drop i := by
            unfold substr
            apply List.take_of_length_le
            rw [List.length_drop]; omega
          refine ⟨[inp.drop j], by rw [hsub, ← htemp], ?_, ?_⟩
          · intro seg hseg
            rw [List.mem_singleton] at hseg
            subst hseg
            rintro ⟨a, b, hab⟩
            have hw := substr_of_occurrence inp token a b j hab
            have hl := congrArg List.length hab
            simp only [List.length_append, List.length_drop] at hl
            by_cases hp : j + a.length < i
            · exact hwin (j + a.length) (by omega) hp hw
            · have hpi : j + a.length = i := by omega
              rw [hpi] at hw
              exact htest hw
          · exact ⟨[], [], by simp, trivial⟩
        · rw [if_neg hlast]
          obtain ⟨new, hres, hno, hord⟩ := ih (i + 1) j (temp ++ [inp[i]]) out
            (by omega) (by omega) (by rw [htemp, hd]; simp)
            (fun p hp1 hp2 => by
              by_cases hpi : p = i
              · rw [hpi]; exact htest
              · exact hwin p hp1 (by omega))
            (by rw [List.length_append, hlen_temp]; simp; omega)
          exact ⟨new, hres, hno, hord⟩
    · rw [dif_neg h]
      exact ⟨[], by simp, by simp, trivial⟩

end objl

/-! ## The claims -/

namespace objl

open algorithm

/-- C1: when the line loop of `LoadFile` succeeds, the position list has as many
entries as there are input lines whose first token is `v`, and the face list as
many as there are lines whose first token is `f`. -/
theorem LoadFile_lengths {F : Type} (stod : Str → Option F) (prior d : Loader F)
    (lines : List Str) (h : LoadFile stod prior lines = LoadResult.ok d) :
    d.LoadedVertices.length = lines.countP (fun l => firstToken l = kw_v) ∧
    d.LoadedTriangles.length = lines.countP (fun l => firstToken l = kw_f) := by
  have := loadLoop_lengths stod lines 0 _ d h
  simpa using this

theorem LoadFile_lengths_witness :
    LoadFile stodDigit (Loader.cleared (Fin 10)) sampleLines = LoadResult.ok sampleDoc ∧
    sampleDoc.LoadedVertices.length = sampleLines.countP (fun l => firstToken l = kw_v) ∧
    sampleDoc.LoadedTriangles.length = sampleLines.countP (fun l => firstToken l = kw_f) :=
  ⟨by decide,
    LoadFile_lengths stodDigit (Loader.cleared (Fin 10)) sampleDoc sampleLines (by decide)⟩

/-- C2 (as amended): with `L` positions loaded, a line whose first token is `f`
and whose tail splits on one space into three tokens `t1 t2 t3`, the part of
each before its first `/` being the decimal text of an integer in the range of
`int`, is processed successfully: exactly one `Triangle` is appended, its text
is the whole line and its index set is
`{getIndex L a1, getIndex L a2, getIndex L a3}` with `ai` the part of `ti` before
its first `/`. Nothing after the first `/` of a token enters the result. -/
theorem processLine_face {F : Type} (stod : Str → Option F) (st : Loader F)
    (line t1 t2 t3 : Str) (N1 N2 N3 : Int)
    (hf : firstToken line = kw_f)
    (hsplit : split (tail line) [' '] = [t1, t2, t3])
    (h1 : IsDecimalText (beforeSlash t1) N1) (h2 : IsDecimalText (beforeSlash t2) N2)
    (h3 : IsDecimalText (beforeSlash t3) N3)
    (hr1 : -2147483648 ≤ N1 ∧ N1 ≤ 2147483647) (hr2 : -2147483648 ≤ N2 ∧ N2 ≤ 2147483647)
    (hr3 : -2147483648 ≤ N3 ∧ N3 ≤ 2147483647) :
    ∃ r1 r2 r3 : Int,
      getIndex st.LoadedVertices.length (beforeSlash t1) = Except.ok r1 ∧
      getIndex st.LoadedVertices.length (beforeSlash t2) = Except.ok r2 ∧
      getIndex st.LoadedVertices.length (beforeSlash t3) = Except.ok r3 ∧
      processLine stod st line =
        Except.ok { st with
          LoadedTriangles := st.LoadedTriangles ++
            [{ array := IntSet.insert r3 (IntSet.insert r2 (IntSet.insert r1 [])),
               strVersion := line }] } ∧
      ∀ x, x ∈ IntSet.insert r3 (IntSet.insert r2 (IntSet.insert r1 [])) ↔
        x = r1 ∨ x = r2 ∨ x = r3 := by
  have hne : ∀ t N, IsDecimalText (beforeSlash t) N → t ≠ [] := by
    intro t N h ht
    rw [ht] at h
    revert h
    simp [beforeSlash, IsDecimalText]
  have g1 := getIndex_decimal st.LoadedVertices.length _ N1 h1 hr1.1 hr1.2
  have g2 := getIndex_decimal st.LoadedVertices.length _ N2 h2 hr2.1 hr2.2
  have g3 := getIndex_decimal st.LoadedVertices.length _ N3 h3 hr3.1 hr3.2
  refine ⟨_, _, _, g1, g2, g3, ?_, ?_⟩
  · rw [processLine_f stod st line hf, hsplit, if_pos (by rfl),
      faceLoop_cons _ t1 _ _ (hne t1 N1 h1), g1]
    simp only
    rw [faceLoop_cons _ t2 _ _ (hne t2 N2 h2), g2]
    simp only
    rw [faceLoop_cons _ t3 _ _ (hne t3 N3 h3), g3]
    simp only [faceLoop]
  · intro x
    simp only [IntSet.mem_insert, List.not_mem_nil, or_false]
    tauto

theorem processLine_face_witness :
    firstToken "f 1/7 -2/8/9 3//x".toList = kw_f ∧
    (∃ r1 r2 r3 : Int,
      getIndex threePositions.LoadedVertices.length (beforeSlash "1/7".toList) = Except.ok r1 ∧
      getIndex threePositions.LoadedVertices.length (beforeSlash "-2/8/9".toList) =
        Except.ok r2 ∧
      getIndex threePositions.LoadedVertices.length (beforeSlash "3//x".toList) = Except.ok r3 ∧
      processLine stodDigit threePositions "f 1/7 -2/8/9 3//x".toList =
        Except.ok { threePositions with
          LoadedTriangles := threePositions.LoadedTriangles ++
            [{ array := IntSet.insert r3 (IntSet.insert r2 (IntSet.insert r1 [])),
               strVersion := "f 1/7 -2/8/9 3//x".toList }] } ∧
      ∀ x, x ∈ IntSet.insert r3 (IntSet.insert r2 (IntSet.insert r1 [])) ↔
        x = r1 ∨ x = r2 ∨ x = r3) ∧
    LoadFile stodDigit (Loader.cleared (Fin 10)) scenarioLines =
      LoadResult.ok { threePositions with
        LoadedTriangles := [{ array := [0, 1, 2], strVersion := "f 1 2 3".toList }] } :=
  ⟨by decide,
    processLine_face stodDigit threePositions
      "f 1/7 -2/8/9 3//x".toList "1/7".toList "-2/8/9".toList "3//x".toList 1 (-2) 3
      (by decide) (by decide) (by decide) (by decide) (by decide) (by decide) (by decide)
      (by decide),
    by decide⟩

/-- C2 (as stated) fails on the line `f 2147483648 1 2`: its three tokens are
non-empty decimal texts of integers, yet `std::stoi` throws `out_of_range` on
the first, the line stops with `InvalidIndex` and no face is appended. -/
theorem processLine_face_range_counterexample :
    firstToken "f 2147483648 1 2".toList = kw_f ∧
    split (tail "f 2147483648 1 2".toList) [' '] =
      ["2147483648".toList, "1".toList, "2".toList] ∧
    IsDecimalText (beforeSlash "2147483648".toList) 2147483648 ∧
    IsDecimalText (beforeSlash "1".toList) 1 ∧
    IsDecimalText (beforeSlash "2".toList) 2 ∧
    getIndex threePositions.LoadedVertices.length (beforeSlash "2147483648".toList) =
      Except.error StoiError.out_of_range ∧
    processLine stodDigit threePositions "f 2147483648 1 2".toList =
      Except.error Failure.InvalidIndex := by
  decide

/-- C3 (as amended): for every list length `count` and every index token that is
the decimal text of an integer `N` in the range of `int`, `getIndex` returns
`N − 1` when `N` is positive, `−1` when `N` is zero, and `count + N` when `N` is
negative. -/
theorem getIndex_of_decimal (count : Nat) (s : Str) (N : Int) (h : IsDecimalText s N)
    (hlo : -2147483648 ≤ N) (hhi : N ≤ 2147483647) :
    (0 < N → getIndex count s = Except.ok (N - 1)) ∧
    (N = 0 → getIndex count s = Except.ok (-1)) ∧
    (N < 0 → getIndex count s = Except.ok ((count : Int) + N)) := by
  have hg := getIndex_decimal count s N h hlo hhi
  refine ⟨fun hp => ?_, fun hz => ?_, fun hn => ?_⟩
  · rw [hg, if_neg (by omega)]
  · rw [hg, if_neg (by omega), hz]; rfl
  · rw [hg, if_pos hn]

theorem getIndex_of_decimal_witness :
    IsDecimalText ['-', '2'] (-2) ∧
    ((0 : Int) < -2 → getIndex 3 ['-', '2'] = Except.ok (-2 - 1)) ∧
    ((-2 : Int) = 0 → getIndex 3 ['-', '2'] = Except.ok (-1)) ∧
    ((-2 : Int) < 0 → getIndex 3 ['-', '2'] = Except.ok ((3 : Nat) + (-2 : Int))) :=
  ⟨by decide, getIndex_of_decimal 3 ['-', '2'] (-2) (by decide) (by decide) (by decide)⟩

/-- C3 (as stated) fails at `N = 0`: the token `0` is the decimal text of the
non-positive integer 0, and with three elements `getIndex` returns `−1`, not
`count + N = 3`. -/
theorem getIndex_zero_counterexample :
    IsDecimalText ['0'] 0 ∧ ¬ ((0 : Int) > 0) ∧
    getIndex 3 ['0'] = Except.ok (-1) ∧
    getIndex 3 ['0'] ≠ Except.ok ((3 : Nat) + (0 : Int)) := by
  refine ⟨by decide, by decide, by decide, by decide⟩

/-- C4: with `L ≥ 1` positions and `1 ≤ k ≤ L`, the index token for `−k` (a value
of `int`) resolves to the zero-based index `L − k`, a valid index of the list;
for `k = 1` that is `L − 1` and for `k = L` it is `0`. -/
theorem getIndex_negative (L k : Nat) (s : Str) (h1 : 1 ≤ k) (hk : k ≤ L)
    (hint : k ≤ 2147483648) (hs : IsDecimalText s (-(k : Int))) :
    getIndex L s = Except.ok ((L : Int) - k) ∧
    0 ≤ (L : Int) - k ∧ (L : Int) - k < L ∧
    (k = 1 → getIndex L s = Except.ok ((L : Int) - 1)) ∧
    (k = L → getIndex L s = Except.ok 0) := by
  have hg := getIndex_decimal L s (-(k : Int)) hs (by omega) (by omega)
  rw [if_pos (by omega)] at hg
  have hval : getIndex L s = Except.ok ((L : Int) - k) := by
    rw [hg]; congr 1
  refine ⟨hval, by omega, by omega, fun h => ?_, fun h => ?_⟩
  · rw [hval, h]; rfl
  · rw [hval, h]; congr 1; omega

theorem getIndex_negative_witness :
    IsDecimalText ['-', '3'] (-((3 : Nat) : Int)) ∧
    getIndex 3 ['-', '3'] = Except.ok (((3 : Nat) : Int) - (3 : Nat)) ∧
    getIndex 3 ['-', '1'] = Except.ok (((3 : Nat) : Int) - (1 : Nat)) :=
  ⟨by decide,
    (getIndex_negative 3 3 ['-', '3'] (by decide) (by decide) (by decide) (by decide)).1,
    (getIndex_negative 3 1 ['-', '1'] (by decide) (by decide) (by decide) (by decide)).1⟩

/-- C5 (as amended): when the load of `pre ++ l :: post` succeeds, `l` has first
token `f`, and every vertex token of `l` is consistent with the `L` positions
read before it (its index reference `N` has `1 ≤ N ≤ L` or `−L ≤ N ≤ −1`), then
the lines before `l` load to a document with `L` positions, `l` appends one
face to it, that face is in the final face list, and every index it stores is
`≥ 0` and `< L`, hence a valid index of the final position list. -/
theorem LoadFile_face_indices_valid {F : Type} (stod : Str → Option F) (prior d : Loader F)
    (pre post : List Str) (l : Str)
    (hload : LoadFile stod prior (pre ++ l :: post) = LoadResult.ok d)
    (hf : firstToken l = kw_f)
    (hcons : ∀ tok ∈ split (tail l) [' '],
      indexInRange (pre.countP (fun x => firstToken x = kw_v)) tok = true) :
    ∃ (dp : Loader F) (arr : IntSet),
      LoadFile stod prior pre = LoadResult.ok dp ∧
      dp.LoadedVertices.length = pre.countP (fun x => firstToken x = kw_v) ∧
      LoadFile stod prior (pre ++ [l]) =
        LoadResult.ok { dp with
          LoadedTriangles := dp.LoadedTriangles ++ [{ array := arr, strVersion := l }] } ∧
      ({ array := arr, strVersion := l } : Triangle) ∈ d.LoadedTriangles ∧
      ∀ i ∈ arr, 0 ≤ i ∧ i < (dp.LoadedVertices.length : Int) ∧
        i < (d.LoadedVertices.length : Int) := by
  unfold LoadFile at hload
  rw [loadLoop_append] at hload
  cases hpre : loadLoop stod pre 0
      { prior with
        strMesh := [], strMaterial := [], strMaterialPath := [], strSmoothShading := [],
        LoadedVertices := [], LoadedTriangles := [], strNormals := [], strTextures := [] } with
  | failed e j d1 => rw [hpre] at hload; cases hload
  | ok dp =>
    rw [hpre] at hload
    simp only [loadLoop] at hload
    cases hp : processLine stod dp l with
    | error e => rw [hp] at hload; cases hload
    | ok dp1 =>
      rw [hp] at hload
      simp only at hload
      obtain ⟨arr, _, hloop, hdp1⟩ := processLine_f_ok stod dp l dp1 hf hp
      have hcount := (loadLoop_lengths stod pre 0 _ dp hpre).1
      simp only [List.length_nil, Nat.zero_add] at hcount
      obtain ⟨⟨vs, hvs⟩, ⟨ts, hts⟩⟩ := loadLoop_grows stod post _ dp1 d hload
      have hrange := faceLoop_in_range dp.LoadedVertices.length _ [] arr
        (by rw [hcount]; exact hcons) (by simp) hloop
      refine ⟨dp, arr, ?_, hcount, ?_, ?_, ?_⟩
      · unfold LoadFile; exact hpre
      · unfold LoadFile
        rw [loadLoop_append, hpre]
        simp only [loadLoop, hp, hdp1]
      · rw [hts, hdp1]; simp
      · intro i hi
        obtain ⟨h0, h1⟩ := hrange i hi
        refine ⟨h0, h1, ?_⟩
        rw [hvs, hdp1, List.length_append]
        push_cast
        omega

theorem LoadFile_face_indices_valid_witness :
    ∃ (dp : Loader (Fin 10)) (arr : IntSet),
      LoadFile stodDigit (Loader.cleared (Fin 10)) (sampleLines.take 6) = LoadResult.ok dp ∧
      dp.LoadedVertices.length = (sampleLines.take 6).countP (fun x => firstToken x = kw_v) ∧
      LoadFile stodDigit (Loader.cleared (Fin 10)) (sampleLines.take 6 ++ ["f -1 -2 -3".toList]) =
        LoadResult.ok { dp with
          LoadedTriangles := dp.LoadedTriangles ++
            [{ array := arr, strVersion := "f -1 -2 -3".toList }] } ∧
      ({ array := arr, strVersion := "f -1 -2 -3".toList } : Triangle) ∈
        sampleDoc.LoadedTriangles ∧
      ∀ i ∈ arr, 0 ≤ i ∧ i < (dp.LoadedVertices.length : Int) ∧
        i < (sampleDoc.LoadedVertices.length : Int) :=
  LoadFile_face_indices_valid stodDigit (Loader.cleared (Fin 10)) sampleDoc
    (sampleLines.take 6) [] "f -1 -2 -3".toList (by decide) (by decide) (by decide)

/-- C5 (as stated) fails on the single line `f 1 2 3`: the load succeeds with no
position at all, and the face stores the indices 0, 1 and 2, none of which is
below the number of positions. -/
theorem LoadFile_face_index_counterexample :
    LoadFile stodDigit (Loader.cleared (Fin 10)) ["f 1 2 3".toList] =
      LoadResult.ok noPositionsDoc ∧
    noPositionsDoc.LoadedVertices.length = 0 ∧
    ¬ (∀ t ∈ noPositionsDoc.LoadedTriangles, ∀ i ∈ t.array,
        0 ≤ i ∧ i < (noPositionsDoc.LoadedVertices.length : Int)) := by
  decide

/-- C6 at the failing input `v 0 0 0`, `f 1 1 1`: the load succeeds and the one
face in the list holds a single index, not three. -/
theorem LoadFile_repeated_index :
    LoadFile stodDigit (Loader.cleared (Fin 10)) ["v 0 0 0".toList, "f 1 1 1".toList] =
      LoadResult.ok repeatedIndexDoc ∧
    repeatedIndexDoc.LoadedTriangles.map (fun t => t.array.length) = [1] := by
  decide

/-- C7 (as amended): let a load of `lines` succeed with document `d`, let every
coordinate of `d` be written as a non-empty word without space or tab that
parses, and let every `f` line of the input resolve against the final number of
positions to what it resolves to against the positions read before it (so for
every face whose indices are all positive, and for every input whose `v` lines
all precede its `f` lines). Then loading the lines the driver emits for `d`
succeeds and yields a document with the same four singular members, the same
texture and normal lines, the same number of positions, and the same faces,
text and index set, position by position. -/
theorem LoadFile_emitLines {F : Type} (stod : Str → Option F) (fmt : F → Str)
    (prior prior2 d : Loader F) (lines : List Str)
    (hload : LoadFile stod prior lines = LoadResult.ok d)
    (hfmt : ∀ v ∈ d.LoadedVertices, ParsableWord stod (fmt v.X) ∧
      ParsableWord stod (fmt v.Y) ∧ ParsableWord stod (fmt v.Z))
    (hfaces : ∀ i, i < lines.length → firstToken (lines.getD i []) = kw_f →
      faceLoop (lines.countP (fun x => firstToken x = kw_v))
          (split (tail (lines.getD i [])) [' ']) [] =
        faceLoop ((lines.take i).countP (fun x => firstToken x = kw_v))
          (split (tail (lines.getD i [])) [' ']) []) :
    ∃ d2, LoadFile stod prior2 (emitLines fmt d) = LoadResult.ok d2 ∧
      d2.strMesh = d.strMesh ∧ d2.strMaterial = d.strMaterial ∧
      d2.strSmoothShading = d.strSmoothShading ∧ d2.strMaterialPath = d.strMaterialPath ∧
      d2.strNormals = d.strNormals ∧ d2.strTextures = d.strTextures ∧
      d2.LoadedVertices.length = d.LoadedVertices.length ∧
      d2.LoadedTriangles = d.LoadedTriangles := by
  unfold LoadFile at hload
  have hw : d.WellTagged := loadLoop_wellTagged stod lines 0 _ d hload
    ⟨Or.inl rfl, Or.inl rfl, Or.inl rfl, Or.inl rfl, by simp, by simp⟩
  obtain ⟨hwo, hwu, hws, hwm, hwt, hwn⟩ := hw
  have hcount := (loadLoop_lengths stod lines 0 _ d hload).1
  simp only [List.length_nil, Nat.zero_add] at hcount
  have horigin := loadLoop_face_origin stod lines 0 _ d hload
  have hface : ∀ t ∈ d.LoadedTriangles, firstToken t.strVersion = kw_f ∧
      (split (tail t.strVersion) [' ']).length = 3 ∧
      faceLoop d.LoadedVertices.length (split (tail t.strVersion) [' ']) [] =
        Except.ok t.array := by
    intro t ht
    rcases horigin t ht with hin | ⟨pre, post, hlines, hf, h3, hloop⟩
    · simp at hin
    · refine ⟨hf, h3, ?_⟩
      have hget : lines.getD pre.length [] = t.strVersion := by
        rw [hlines, List.getD_eq_getElem?_getD, List.getElem?_append_right (Nat.le_refl _)]
        simp
      have htake : lines.take pre.length = pre := by
        rw [hlines]; simp
      have := hfaces pre.length (by rw [hlines]; simp) (by rw [hget]; exact hf)
      rw [hget, htake] at this
      rw [hcount, this]
      simpa using hloop
  obtain ⟨ws, hwslen, hpos⟩ := loadLoop_positions stod fmt d.LoadedVertices
    { strMesh := d.strMesh, strMaterial := [], strSmoothShading := [], LoadedVertices := [],
      LoadedTriangles := [], strMaterialPath := d.strMaterialPath, strNormals := [],
      strTextures := [] } hfmt
  have hchain := loadLoop_append_ok stod _ _ _ _ _
    (loadLoop_append_ok stod _ _ _ _ _
      (loadLoop_append_ok stod _ _ _ _ _
        (loadLoop_append_ok stod _ _ _ _ _
          (loadLoop_append_ok stod _ _ _ _ _
            (loadLoop_append_ok stod _ _ _ _ _
              (loadLoop_append_ok stod _ _ _ _ _
                (loadLoop_library stod d.strMaterialPath (Loader.cleared F) (by rfl) hwm)
                (loadLoop_object stod d.strMesh _ (by rfl) hwo))
              hpos)
            (loadLoop_textures stod d.strTextures _ hwt))
          (loadLoop_normals stod d.strNormals _ hwn))
        (loadLoop_material stod d.strMaterial _ (by rfl) hwu))
      (loadLoop_smoothing stod d.strSmoothShading _ (by rfl) hws))
    (loadLoop_faces stod d.LoadedTriangles _ (by
      intro t ht
      obtain ⟨h1, h2, h3⟩ := hface t ht
      refine ⟨h1, h2, ?_⟩
      simpa [hwslen] using h3))
  exact ⟨_, hchain, rfl, rfl, rfl, rfl, by simp, by simp, by simp [hwslen], by simp⟩

theorem LoadFile_emitLines_witness :
    LoadFile stodDigit (Loader.cleared (Fin 10)) sampleLines = LoadResult.ok sampleDoc ∧
    (∃ d2, LoadFile stodDigit sampleDoc (emitLines fmtDigit sampleDoc) = LoadResult.ok d2 ∧
      d2.strMesh = sampleDoc.strMesh ∧ d2.strMaterial = sampleDoc.strMaterial ∧
      d2.strSmoothShading = sampleDoc.strSmoothShading ∧
      d2.strMaterialPath = sampleDoc.strMaterialPath ∧
      d2.strNormals = sampleDoc.strNormals ∧ d2.strTextures = sampleDoc.strTextures ∧
      d2.LoadedVertices.length = sampleDoc.LoadedVertices.length ∧
      d2.LoadedTriangles = sampleDoc.LoadedTriangles) ∧
    (∃ d2, LoadFile stodDigit sampleDoc (emitLines fmtZero sampleDoc) = LoadResult.ok d2 ∧
      d2.strMesh = sampleDoc.strMesh ∧ d2.strMaterial = sampleDoc.strMaterial ∧
      d2.strSmoothShading = sampleDoc.strSmoothShading ∧
      d2.strMaterialPath = sampleDoc.strMaterialPath ∧
      d2.strNormals = sampleDoc.strNormals ∧ d2.strTextures = sampleDoc.strTextures ∧
      d2.LoadedVertices.length = sampleDoc.LoadedVertices.length ∧
      d2.LoadedTriangles = sampleDoc.LoadedTriangles) :=
  ⟨by decide,
    LoadFile_emitLines stodDigit fmtDigit (Loader.cleared (Fin 10)) sampleDoc sampleDoc
      sampleLines (by decide) (by decide) (by decide),
    LoadFile_emitLines stodDigit fmtZero (Loader.cleared (Fin 10)) sampleDoc sampleDoc
      sampleLines (by decide) (by decide) (by decide)⟩

/-- C7 (as stated) fails on an input in which a position follows a face with
relative indices: the face `f -1 -2 -3`, read after three positions, gets the
index set {0, 1, 2}; the emission puts all four positions first, and read back
the same text gets {1, 2, 3}. The formatting used parses back to every
coordinate. -/
theorem LoadFile_emitLines_counterexample :
    (∀ x : Fin 10, stodDigit (fmtDigit x) = some x) ∧
    LoadFile stodDigit (Loader.cleared (Fin 10)) interleavedLines =
      LoadResult.ok interleavedDoc ∧
    LoadFile stodDigit interleavedDoc (emitLines fmtDigit interleavedDoc) =
      LoadResult.ok interleavedReloaded ∧
    interleavedDoc.LoadedTriangles.map (fun t => t.array) = [[0, 1, 2]] ∧
    interleavedReloaded.LoadedTriangles.map (fun t => t.array) = [[1, 2, 3]] ∧
    interleavedReloaded ≠ interleavedDoc := by
  decide

/-- C8: for each keyword `kw` among `o`, `usemtl`, `s`, `mtllib`, a load of lines
of which at least two have first token `kw` never succeeds; and when the lines
before the second such line load without failure, the load fails with
`DuplicateField` at that line, with the document those earlier lines produced,
whatever lines follow. -/
theorem LoadFile_duplicate {F : Type} (stod : Str → Option F) (prior : Loader F) (kw : Str)
    (hkw : kw = kw_o ∨ kw = kw_usemtl ∨ kw = kw_s ∨ kw = kw_mtllib) :
    (∀ lines : List Str, 2 ≤ lines.countP (fun l => firstToken l = kw) →
      ∀ d, LoadFile stod prior lines ≠ LoadResult.ok d) ∧
    (∀ (pre : List Str) (l : Str) (post : List Str) (d : Loader F),
      pre.countP (fun l => firstToken l = kw) = 1 → firstToken l = kw →
      LoadFile stod prior pre = LoadResult.ok d →
      LoadFile stod prior (pre ++ l :: post) =
        LoadResult.failed Failure.DuplicateField pre.length d) := by
  have key : ∀ (pre : List Str) (l : Str) (post : List Str) (d : Loader F),
      (∃ l1 ∈ pre, firstToken l1 = kw) → firstToken l = kw →
      LoadFile stod prior pre = LoadResult.ok d →
      LoadFile stod prior (pre ++ l :: post) =
        LoadResult.failed Failure.DuplicateField pre.length d := by
    intro pre l post d hocc hl hpre
    unfold LoadFile at hpre ⊢
    rw [loadLoop_append, hpre]
    simp only [loadLoop, Nat.zero_add]
    have hset := loadLoop_singular_set stod kw hkw pre 0 _ d hpre (Or.inr hocc)
    rw [processLine_duplicate stod kw hkw d l hl hset]
  constructor
  · intro lines hcount d hok
    obtain ⟨pre, l, post, hlines, hpl, l1, hl1, hpl1⟩ :=
      exists_second_of_countP _ lines hcount
    have hl : firstToken l = kw := by simpa using hpl
    have hl1kw : firstToken l1 = kw := by simpa using hpl1
    have hsplit : LoadFile stod prior (pre ++ l :: post) = LoadResult.ok d := by
      rw [← hlines]; exact hok
    cases hpre : LoadFile stod prior pre with
    | ok d1 =>
      rw [key pre l post d1 ⟨l1, hl1, hl1kw⟩ hl hpre] at hsplit
      cases hsplit
    | failed e j d1 =>
      unfold LoadFile at hpre hsplit
      rw [loadLoop_append, hpre] at hsplit
      cases hsplit
  · intro pre l post d hcount hl hpre
    have hpos : 0 < pre.countP (fun l => firstToken l = kw) := by omega
    obtain ⟨l1, hl1, hpl1⟩ := List.countP_pos_iff.mp hpos
    exact key pre l post d ⟨l1, hl1, by simpa using hpl1⟩ hl hpre

theorem LoadFile_duplicate_witness :
    (kw_usemtl = kw_o ∨ kw_usemtl = kw_usemtl ∨ kw_usemtl = kw_s ∨ kw_usemtl = kw_mtllib) ∧
    2 ≤ twoMaterialLines.countP (fun l => firstToken l = kw_usemtl) ∧
    (∀ d, LoadFile stodDigit (Loader.cleared (Fin 10)) twoMaterialLines ≠ LoadResult.ok d) ∧
    LoadFile stodDigit (Loader.cleared (Fin 10))
        (twoMaterialLines.take 3 ++ "usemtl b".toList :: twoMaterialLines.drop 4) =
      LoadResult.failed Failure.DuplicateField (twoMaterialLines.take 3).length twoMaterialDoc :=
  ⟨by decide, by decide,
    (LoadFile_duplicate stodDigit (Loader.cleared (Fin 10)) kw_usemtl (by decide)).1
      twoMaterialLines (by decide),
    (LoadFile_duplicate stodDigit (Loader.cleared (Fin 10)) kw_usemtl (by decide)).2
      (twoMaterialLines.take 3) "usemtl b".toList (twoMaterialLines.drop 4) twoMaterialDoc
      (by decide) (by decide) (by decide)⟩

/-- C9: when the load fails at line `k`, the document at that moment is the one
a successful load of the first `k` lines alone produces; the failing line is
line `k`, it fails on that document without changing it, and whatever lines
follow line `k` the outcome is the same. -/
theorem LoadFile_failure_state {F : Type} (stod : Str → Option F) (prior : Loader F)
    (lines : List Str) (e : Failure) (k : Nat) (d : Loader F)
    (h : LoadFile stod prior lines = LoadResult.failed e k d) :
    k < lines.length ∧
    LoadFile stod prior (lines.take k) = LoadResult.ok d ∧
    (∃ l, lines.get? k = some l ∧ processLine stod d l = Except.error e) ∧
    ∀ later : List Str,
      LoadFile stod prior (lines.take (k + 1) ++ later) = LoadResult.failed e k d := by
  unfold LoadFile at h
  obtain ⟨pre, l, post, hlines, hk, hpre, hfail⟩ := loadLoop_failed stod lines 0 k _ d e h
  have hk1 : k = pre.length := by omega
  have htake : lines.take k = pre := by
    rw [hlines, hk1]; simp
  have htake1 : lines.take (k + 1) = pre ++ [l] := by
    rw [hlines, hk1]
    rw [List.take_append_eq_append_take]
    simp
  refine ⟨by rw [hlines, hk1]; simp, ?_, ⟨l, ?_, hfail⟩, ?_⟩
  · unfold LoadFile
    rw [htake]; exact hpre
  · rw [hlines, hk1, List.get?_eq_getElem?, List.getElem?_append_right (Nat.le_refl _)]
    simp
  · intro later
    unfold LoadFile
    rw [htake1, List.append_assoc, loadLoop_append, hpre]
    simp only [List.singleton_append, loadLoop, hfail, Nat.zero_add, hk1]

theorem LoadFile_failure_state_witness :
    LoadFile stodDigit (Loader.cleared (Fin 10)) twoMaterialLines =
      LoadResult.failed Failure.DuplicateField 3 twoMaterialDoc ∧
    (3 < twoMaterialLines.length ∧
      LoadFile stodDigit (Loader.cleared (Fin 10)) (twoMaterialLines.take 3) =
        LoadResult.ok twoMaterialDoc ∧
      (∃ l, twoMaterialLines.get? 3 = some l ∧
        processLine stodDigit twoMaterialDoc l = Except.error Failure.DuplicateField) ∧
      ∀ later : List Str,
        LoadFile stodDigit (Loader.cleared (Fin 10)) (twoMaterialLines.take (3 + 1) ++ later) =
          LoadResult.failed Failure.DuplicateField 3 twoMaterialDoc) ∧
    twoMaterialDoc.LoadedVertices.length = 2 ∧ twoMaterialDoc.LoadedTriangles = [] :=
  ⟨by decide,
    LoadFile_failure_state stodDigit (Loader.cleared (Fin 10)) twoMaterialLines
      Failure.DuplicateField 3 twoMaterialDoc (by decide),
    by decide, by decide⟩

/-- C10: a line whose first token is `f` fails with `MalformedFace` exactly when
its tail, split on one space, does not give three tokens; so a line with four
vertex tokens fails with `MalformedFace`, whatever the tokens are. -/
theorem processLine_malformedFace_iff {F : Type} (stod : Str → Option F) (st : Loader F)
    (line : Str) (hf : firstToken line = kw_f) :
    (processLine stod st line = Except.error Failure.MalformedFace ↔
      (split (tail line) [' ']).length ≠ 3) ∧
    ((split (tail line) [' ']).length = 4 →
      processLine stod st line = Except.error Failure.MalformedFace) := by
  have hiff : processLine stod st line = Except.error Failure.MalformedFace ↔
      (split (tail line) [' ']).length ≠ 3 := by
    rw [processLine_f stod st line hf]
    by_cases hlen : (split (tail line) [' ']).length = 3
    · rw [if_pos hlen]
      constructor
      · intro h
        exfalso
        cases hloop : faceLoop st.LoadedVertices.length (split (tail line) [' ']) [] with
        | error e =>
          rw [hloop] at h
          injection h with h
          rcases faceLoop_error _ _ _ _ hloop with h1 | h1 <;> rw [h1] at h <;> cases h
        | ok arr => rw [hloop] at h; cases h
      · intro h; exact absurd hlen h
    · rw [if_neg hlen]
      exact ⟨fun _ => hlen, fun _ => rfl⟩
  exact ⟨hiff, fun h4 => hiff.mpr (by omega)⟩

theorem processLine_malformedFace_iff_witness :
    firstToken "f 1 2 3 4".toList = kw_f ∧
    (split (tail "f 1 2 3 4".toList) [' ']).length = 4 ∧
    processLine stodDigit threePositions "f 1 2 3 4".toList =
      Except.error Failure.MalformedFace :=
  ⟨by decide, by decide,
    (processLine_malformedFace_iff stodDigit threePositions "f 1 2 3 4".toList (by decide)).2
      (by decide)⟩

/-- C13: a load discards what the loader held before: from any two prior states
the outcome on the same lines is the same, and it is the outcome of the line
loop started on the empty document. -/
theorem LoadFile_discards_prior {F : Type} (stod : Str → Option F) (s1 s2 : Loader F)
    (lines : List Str) :
    LoadFile stod s1 lines = LoadFile stod s2 lines ∧
    LoadFile stod s1 lines = LoadFile stod (Loader.cleared F) lines ∧
    LoadFile stod s1 lines = loadLoop stod lines 0 (Loader.cleared F) :=
  ⟨rfl, rfl, rfl⟩

/-- C15: a line that is empty, or has first token `g`, or has first character
`g`, or has a first token that is none of `o`, `v`, `vt`, `vn`, `f`, `usemtl`,
`s`, `mtllib`, is processed without failure and leaves the document as it was. -/
theorem processLine_ignored {F : Type} (stod : Str → Option F) (st : Loader F) (l : Str)
    (h : l = [] ∨ firstToken l = kw_g ∨ l.headD (Char.ofNat 0) = 'g' ∨
      (firstToken l ≠ kw_o ∧ firstToken l ≠ kw_v ∧ firstToken l ≠ kw_vt ∧
        firstToken l ≠ kw_vn ∧ firstToken l ≠ kw_f ∧ firstToken l ≠ kw_usemtl ∧
        firstToken l ≠ kw_s ∧ firstToken l ≠ kw_mtllib)) :
    processLine stod st l = Except.ok st := by
  rcases h with h | h | h | ⟨ho, hv, hvt, hvn, hf, hu, hs, hm⟩
  · rw [h]; exact processLine_nil stod st
  · exact processLine_g stod st l (Or.inl h)
  · exact processLine_g stod st l (Or.inr h)
  · by_cases hg : firstToken l = kw_g ∨ l.headD (Char.ofNat 0) = 'g'
    · exact processLine_g stod st l hg
    · exact processLine_other stod st l hg ho hv hvt hvn hf hu hs hm

theorem processLine_ignored_witness :
    processLine stodDigit sampleDoc "# a comment".toList = Except.ok sampleDoc ∧
    processLine stodDigit sampleDoc "group 1".toList = Except.ok sampleDoc ∧
    processLine stodDigit sampleDoc [] = Except.ok sampleDoc :=
  ⟨processLine_ignored stodDigit sampleDoc "# a comment".toList
      (Or.inr (Or.inr (Or.inr (by decide)))),
    processLine_ignored stodDigit sampleDoc "group 1".toList (Or.inr (Or.inr (Or.inl (by decide)))),
    processLine_ignored stodDigit sampleDoc [] (Or.inl rfl)⟩

/-- C17: `firstToken` returns the empty string exactly when the line is empty or
holds only spaces and tabs; in every case the line is a run of spaces and tabs,
then the returned token, which holds no space or tab, then either nothing or a
rest that starts with a space or tab. -/
theorem firstToken_spec (l : Str) :
    (firstToken l = [] ↔ ∀ c ∈ l, c = ' ' ∨ c = '\t') ∧
    (∀ c ∈ firstToken l, c ≠ ' ' ∧ c ≠ '\t') ∧
    ∃ w rest, l = w ++ firstToken l ++ rest ∧ (∀ c ∈ w, c = ' ' ∨ c = '\t') ∧
      (∀ c, rest.head? = some c → c = ' ' ∨ c = '\t') := by
  rw [firstToken_eq]
  refine ⟨?_, ?_, l.takeWhile isBlank,
    (l.dropWhile isBlank).dropWhile (fun c => !isBlank c), ?_, ?_, ?_⟩
  · constructor
    · intro h c hc
      rw [← isBlank_iff]
      by_contra hnb
      have hd : l.dropWhile isBlank ≠ [] := by
        intro h0
        exact hnb (List.dropWhile_eq_nil_iff.mp h0 c hc)
      obtain ⟨x, xs, hx⟩ := List.exists_cons_of_ne_nil hd
      have hxb : ¬ isBlank x = true := by
        have := List.head_dropWhile_not isBlank l (by rw [hx]; simp)
        simpa [hx] using this
      rw [hx, List.takeWhile_cons_of_pos (by simpa using hxb)] at h
      cases h
    · intro h
      have : l.dropWhile isBlank = [] :=
        List.dropWhile_eq_nil_iff.mpr (fun c hc => (isBlank_iff c).mpr (h c hc))
      rw [this]; rfl
  · intro c hc
    have := List.mem_takeWhile_imp hc
    have hnb : ¬ (c = ' ' ∨ c = '\t') := by
      rw [← isBlank_iff]; simpa using this
    exact ⟨fun h => hnb (Or.inl h), fun h => hnb (Or.inr h)⟩
  · rw [List.append_assoc, List.takeWhile_append_dropWhile, List.takeWhile_append_dropWhile]
  · intro c hc
    rw [← isBlank_iff]
    exact List.mem_takeWhile_imp hc
  · intro c hc
    rw [← isBlank_iff]
    cases hr : (l.dropWhile isBlank).dropWhile (fun c => !isBlank c) with
    | nil => rw [hr] at hc; cases hc
    | cons x xs =>
      rw [hr] at hc
      have hxc : x = c := by simpa using hc
      have := List.head_dropWhile_not (fun c => !isBlank c) (l.dropWhile isBlank)
        (by rw [hr]; simp)
      simp only [hr, List.head_cons] at this
      rw [← hxc]
      simpa using this

theorem firstToken_spec_witness :
    firstToken " \t usemtl  wood ".toList = "usemtl".toList ∧
    (firstToken "  \t ".toList = [] ↔ ∀ c ∈ "  \t ".toList, c = ' ' ∨ c = '\t') :=
  ⟨by decide, (firstToken_spec "  \t ".toList).1⟩

/-- C18: `tail` returns the line without its leading spaces and tabs, its first
token and the spaces and tabs after that token, and without trailing spaces and
tabs; it is empty when only spaces and tabs follow the first token; it never
begins or ends with a space or tab; and on a line `w1 ++ tok ++ w2 ++ rest ++ w3`
(`w1`, `w3` runs of spaces and tabs, `w2` a non-empty such run, `tok` non-empty
without space or tab, `rest` non-empty, not starting and not ending with a space
or tab) `firstToken` returns `tok` and `tail` returns `rest`. -/
theorem tail_spec (l : Str) :
    tail l =
      (((l.dropWhile isBlank).dropWhile (fun c => !isBlank c)).dropWhile isBlank).rdropWhile
        isBlank ∧
    ((∀ c ∈ (l.dropWhile isBlank).dropWhile (fun c => !isBlank c), c = ' ' ∨ c = '\t') →
      tail l = []) ∧
    (∀ c, (tail l).head? = some c → c ≠ ' ' ∧ c ≠ '\t') ∧
    (∀ c, (tail l).getLast? = some c → c ≠ ' ' ∧ c ≠ '\t') ∧
    (∀ w1 tok w2 rest w3 : Str,
      (∀ c ∈ w1, c = ' ' ∨ c = '\t') → (∀ c ∈ w3, c = ' ' ∨ c = '\t') →
      w2 ≠ [] → (∀ c ∈ w2, c = ' ' ∨ c = '\t') →
      tok ≠ [] → (∀ c ∈ tok, c ≠ ' ' ∧ c ≠ '\t') →
      rest ≠ [] → (∀ c, rest.head? = some c → c ≠ ' ' ∧ c ≠ '\t') →
      (∀ c, rest.getLast? = some c → c ≠ ' ' ∧ c ≠ '\t') →
      l = w1 ++ tok ++ w2 ++ rest ++ w3 →
      firstToken l = tok ∧ tail l = rest) := by
  have hnb : ∀ c : Char, (c ≠ ' ' ∧ c ≠ '\t') ↔ isBlank c = false := by
    intro c
    rw [← Bool.not_eq_true, isBlank_iff]
    tauto
  refine ⟨tail_eq l, ?_, ?_, ?_, ?_⟩
  · intro h
    rw [tail_eq]
    have : ((l.dropWhile isBlank).dropWhile (fun c => !isBlank c)).dropWhile isBlank = [] :=
      List.dropWhile_eq_nil_iff.mpr (fun c hc => (isBlank_iff c).mpr (h c hc))
    rw [this]; rfl
  · intro c hc
    rw [tail_eq, rdropWhile_eq_take] at hc
    rw [hnb]
    generalize hr3 : ((l.dropWhile isBlank).dropWhile (fun c => !isBlank c)).dropWhile
      isBlank = r3 at hc
    cases r3 with
    | nil => simp at hc
    | cons x xs =>
      have hx : ¬ isBlank x = true := by
        have := List.head_dropWhile_not isBlank
          ((l.dropWhile isBlank).dropWhile (fun c => !isBlank c)) (by rw [hr3]; simp)
        simpa [hr3] using this
      have hxc : x = c := by
        cases hn : (x :: xs).length - ((x :: xs).reverse.takeWhile isBlank).length with
        | zero => rw [hn] at hc; simp at hc
        | succ n => rw [hn] at hc; simpa using hc
      rw [← hxc]; simpa using hx
  · intro c hc
    rw [tail_eq] at hc
    rw [hnb]
    generalize hr3 : ((l.dropWhile isBlank).dropWhile (fun c => !isBlank c)).dropWhile
      isBlank = r3 at hc
    by_cases hne : r3.rdropWhile isBlank = []
    · rw [hne] at hc; cases hc
    · have := List.rdropWhile_last_not isBlank r3 hne
      rw [List.getLast?_eq_getLast _ hne] at hc
      injection hc with hc
      rw [← hc]; simpa using this
  · intro w1 tok w2 rest w3 hw1 hw3 hw2ne hw2 htokne htok hrestne hhead hlast hl
    have hw1b : ∀ c ∈ w1, isBlank c = true := fun c hc => (isBlank_iff c).mpr (hw1 c hc)
    have hw2b : ∀ c ∈ w2, isBlank c = true := fun c hc => (isBlank_iff c).mpr (hw2 c hc)
    have hw3b : ∀ c ∈ w3, isBlank c = true := fun c hc => (isBlank_iff c).mpr (hw3 c hc)
    have htokb : ∀ c ∈ tok, (!isBlank c) = true := fun c hc => by
      simp [(hnb c).mp (htok c hc)]
    obtain ⟨b, w2', hw2eq⟩ := List.exists_cons_of_ne_nil hw2ne
    have hbb : isBlank b = true := hw2b b (by rw [hw2eq]; simp)
    have h1 : l.dropWhile isBlank = tok ++ (w2 ++ rest ++ w3) := by
      rw [hl]
      simp only [List.append_assoc]
      rw [List.dropWhile_append_of_pos hw1b]
      exact dropWhile_of_head _ _ (fun c hc => by
        obtain ⟨t, ts, hts⟩ := List.exists_cons_of_ne_nil htokne
        rw [hts] at hc
        have : t = c := by simpa using hc
        rw [← this]
        exact (hnb t).mp (htok t (by rw [hts]; simp)))
    have h2 : (tok ++ (w2 ++ rest ++ w3)).dropWhile (fun c => !isBlank c) =
        w2 ++ rest ++ w3 := by
      rw [List.dropWhile_append_of_pos htokb]
      exact dropWhile_of_head _ _ (fun c hc => by
        rw [hw2eq] at hc
        have : b = c := by simpa using hc
        rw [← this]; simp [hbb])
    have h3 : (w2 ++ rest ++ w3).dropWhile isBlank = rest ++ w3 := by
      rw [List.append_assoc, List.dropWhile_append_of_pos hw2b]
      exact dropWhile_of_head _ _ (fun c hc => by
        obtain ⟨t, ts, hts⟩ := List.exists_cons_of_ne_nil hrestne
        have hc2 : rest.head? = some c := by
          rw [hts] at hc ⊢; simpa using hc
        exact (hnb c).mp (hhead c hc2))
    constructor
    · rw [firstToken_eq, h1, List.takeWhile_append_of_pos htokb]
      have : (w2 ++ rest ++ w3).takeWhile (fun c => !isBlank c) = [] := by
        rw [hw2eq]
        simp [List.takeWhile_cons, hbb]
      rw [this, List.append_nil]
    · rw [tail_eq, h1, h2, h3, rdropWhile_append_blanks _ _ hw3b]
      exact rdropWhile_of_getLast rest (fun c hc => (hnb c).mp (hlast c hc))

theorem tail_spec_witness :
    firstToken (" ".toList ++ "usemtl".toList ++ " \t".toList ++ "dark wood".toList ++
      "  ".toList) = "usemtl".toList ∧
    tail (" ".toList ++ "usemtl".toList ++ " \t".toList ++ "dark wood".toList ++
      "  ".toList) = "dark wood".toList :=
  (tail_spec (" ".toList ++ "usemtl".toList ++ " \t".toList ++ "dark wood".toList ++
      "  ".toList)).2.2.2.2 " ".toList "usemtl".toList " \t".toList "dark wood".toList
    "  ".toList (by decide) (by decide) (by decide) (by decide) (by decide) (by decide)
    (by decide) (by decide) (by decide) rfl

/-- C12 at the failing input `v 1 2`: the first token is `v` and the tail splits
on one space into the two fields `1` and `2`; the `v` branch then subscripts
`spos[2]`, past the end of `spos`, where the claim has the line fail with
`MalformedVertex`. -/
theorem processLine_short_vertex :
    firstToken "v 1 2".toList = kw_v ∧
    split (tail "v 1 2".toList) [' '] = ["1".toList, "2".toList] ∧
    processLine stodDigit threePositions "v 1 2".toList =
      Except.error Failure.SubscriptOutOfRange ∧
    processLine stodDigit threePositions "v 1 2".toList ≠
      Except.error Failure.MalformedVertex := by
  decide

/-- C14: when the load succeeds, the texture-line list is the list of input
lines whose first token is `vt`, in input order and unchanged, the normal-line
list likewise for `vn`, and each of the four singular members is empty when no
input line has its keyword as first token and otherwise is the whole text of
the one input line that has. -/
theorem LoadFile_verbatim {F : Type} (stod : Str → Option F) (prior d : Loader F)
    (lines : List Str) (h : LoadFile stod prior lines = LoadResult.ok d) :
    d.strTextures = lines.filter (fun l => firstToken l = kw_vt) ∧
    d.strNormals = lines.filter (fun l => firstToken l = kw_vn) ∧
    ((lines.filter (fun l => firstToken l = kw_o) = [] ∧ d.strMesh = []) ∨
      ∃ l, lines.filter (fun l => firstToken l = kw_o) = [l] ∧ d.strMesh = l) ∧
    ((lines.filter (fun l => firstToken l = kw_usemtl) = [] ∧ d.strMaterial = []) ∨
      ∃ l, lines.filter (fun l => firstToken l = kw_usemtl) = [l] ∧ d.strMaterial = l) ∧
    ((lines.filter (fun l => firstToken l = kw_s) = [] ∧ d.strSmoothShading = []) ∨
      ∃ l, lines.filter (fun l => firstToken l = kw_s) = [l] ∧ d.strSmoothShading = l) ∧
    ((lines.filter (fun l => firstToken l = kw_mtllib) = [] ∧ d.strMaterialPath = []) ∨
      ∃ l, lines.filter (fun l => firstToken l = kw_mtllib) = [l] ∧
        d.strMaterialPath = l) := by
  unfold LoadFile at h
  obtain ⟨h1, h2, h3⟩ := loadLoop_fields stod lines 0 _ d h
  have key : ∀ kw, kw = kw_o ∨ kw = kw_usemtl ∨ kw = kw_s ∨ kw = kw_mtllib →
      (lines.filter (fun l => firstToken l = kw) = [] ∧ singularField kw d = []) ∨
      ∃ l, lines.filter (fun l => firstToken l = kw) = [l] ∧ singularField kw d = l := by
    intro kw hkw
    rcases h3 kw hkw with ⟨a, b⟩ | ⟨_, l, a, b⟩
    · left
      refine ⟨a, ?_⟩
      rw [b]
      rcases hkw with rfl | rfl | rfl | rfl <;> rfl
    · exact Or.inr ⟨l, a, b⟩
  refine ⟨by simpa using h1, by simpa using h2, ?_, ?_, ?_, ?_⟩
  · exact key kw_o (Or.inl rfl)
  · exact key kw_usemtl (Or.inr (Or.inl rfl))
  · exact key kw_s (Or.inr (Or.inr (Or.inl rfl)))
  · exact key kw_mtllib (Or.inr (Or.inr (Or.inr rfl)))

theorem LoadFile_verbatim_witness :
    LoadFile stodDigit (Loader.cleared (Fin 10)) taggedLines = LoadResult.ok taggedDoc ∧
    taggedDoc.strTextures = taggedLines.filter (fun l => firstToken l = kw_vt) ∧
    taggedDoc.strTextures = ["vt 0 1".toList, "vt 1 1".toList] ∧
    taggedDoc.strMesh = " o obj".toList :=
  ⟨by decide,
    (LoadFile_verbatim stodDigit (Loader.cleared (Fin 10)) taggedDoc taggedLines
      (by decide)).1,
    by decide, by decide⟩

/-- C11 (as amended): for every list length, `getIndex` fails (with
`invalid_argument`, the loader's `InvalidIndex`) on every index token that does
not start with an integer, and on no token that does; and an `f` line with
three non-empty vertex tokens, the first `/`-segment of one of which does not
start with an integer, fails with `InvalidIndex`, also as a load failure at
that line. -/
theorem getIndex_invalid {F : Type} (stod : Str → Option F) :
    (∀ (count : Nat) (s : Str), startsWithInteger s = false →
      getIndex count s = Except.error StoiError.invalid_argument) ∧
    (∀ (count : Nat) (s : Str), startsWithInteger s = true →
      getIndex count s ≠ Except.error StoiError.invalid_argument) ∧
    (∀ (st : Loader F) (line t1 t2 t3 : Str),
      firstToken line = kw_f → split (tail line) [' '] = [t1, t2, t3] →
      t1 ≠ [] → t2 ≠ [] → t3 ≠ [] →
      (startsWithInteger (beforeSlash t1) = false ∨
        startsWithInteger (beforeSlash t2) = false ∨
        startsWithInteger (beforeSlash t3) = false) →
      processLine stod st line = Except.error Failure.InvalidIndex ∧
      ∀ (prior : Loader F) (pre post : List Str),
        LoadFile stod prior pre = LoadResult.ok st →
        LoadFile stod prior (pre ++ line :: post) =
          LoadResult.failed Failure.InvalidIndex pre.length st) := by
  refine ⟨fun count s h => (getIndex_invalid_iff count s).mpr h, ?_, ?_⟩
  · intro count s h hfail
    rw [(getIndex_invalid_iff count s).mp hfail] at h
    cases h
  · intro st line t1 t2 t3 hf hsplit h1 h2 h3 hbad
    have hline : processLine stod st line = Except.error Failure.InvalidIndex := by
      rw [processLine_f stod st line hf, hsplit, if_pos (by rfl)]
      rw [faceLoop_invalid st.LoadedVertices.length [t1, t2, t3] []
        (by
          intro tok htok
          simp only [List.mem_cons, List.mem_singleton, List.not_mem_nil, or_false] at htok
          rcases htok with rfl | rfl | rfl <;> assumption)
        (by
          rcases hbad with h | h | h
          · exact ⟨t1, by simp, h⟩
          · exact ⟨t2, by simp, h⟩
          · exact ⟨t3, by simp, h⟩)]
    refine ⟨hline, ?_⟩
    intro prior pre post hpre
    unfold LoadFile at hpre ⊢
    rw [loadLoop_append, hpre]
    simp only [loadLoop, hline, Nat.zero_add]

theorem getIndex_invalid_witness :
    getIndex 3 "a".toList = Except.error StoiError.invalid_argument ∧
    processLine stodDigit threePositions "f 1 a/2 3".toList =
      Except.error Failure.InvalidIndex :=
  ⟨(getIndex_invalid stodDigit).1 3 "a".toList (by decide),
    ((getIndex_invalid stodDigit).2.2 threePositions "f 1 a/2 3".toList "1".toList
      "a/2".toList "3".toList (by decide) (by decide) (by decide) (by decide) (by decide)
      (by decide)).1⟩

/-- C11 (as stated) fails on the token `1x`: it is not a valid integer, yet
`getIndex` returns the index 0 for it, and the input `v 0 0 0`, `f 1x 1 1` loads
without failure. -/
theorem getIndex_junk_counterexample :
    ¬ IsValidInteger "1x".toList ∧
    getIndex 3 "1x".toList = Except.ok 0 ∧
    LoadFile stodDigit (Loader.cleared (Fin 10)) ["v 0 0 0".toList, "f 1x 1 1".toList] =
      LoadResult.ok junkIndexDoc := by
  decide

/-- C20 at the failing input `f 1  2` (two spaces): the first token is `f`, the
tail splits on one space into the three tokens `1`, the empty string and `2`,
so the triangle check passes; the empty token splits on `/` into no sub-token,
and the line stops on the subscript `svert[0]`, not with `InvalidIndex`. -/
theorem processLine_empty_face_token :
    firstToken "f 1  2".toList = kw_f ∧
    split (tail "f 1  2".toList) [' '] = ["1".toList, [], "2".toList] ∧
    (split (tail "f 1  2".toList) [' ']).length = 3 ∧
    split [] ['/'] = [] ∧
    processLine stodDigit threePositions "f 1  2".toList =
      Except.error Failure.SubscriptOutOfRange := by
  decide

/-- C19: for a one-character separator `c`, `split` gives the reference split of
the text at every occurrence of `c`, without the last reference segment when
the text is empty or ends with `c`; so the empty text gives the empty list, and
for a non-empty text that does not end with `c`, joining the output with `c`
gives the text back. The reference split itself joins back to the text and
none of its segments holds `c`. -/
theorem split_single_reference (s : Str) (c : Char) :
    split s [c] =
      (if s = [] ∨ s.getLast? = some c then (referenceSplit c s).dropLast
        else referenceSplit c s) ∧
    split [] [c] = [] ∧
    (s ≠ [] → s.getLast? ≠ some c → List.intercalate [c] (split s [c]) = s) ∧
    List.intercalate [c] (referenceSplit c s) = s ∧
    (∀ seg ∈ referenceSplit c s, c ∉ seg) := by
  have hmain : split s [c] =
      (if s = [] ∨ s.getLast? = some c then (referenceSplit c s).dropLast
        else referenceSplit c s) := by
    rw [split_single]
    by_cases hs : s = []
    · subst hs
      simp [splitFrom, referenceSplit]
    · obtain ⟨seg, more, hT, hS⟩ := splitFrom_reference c s [] hs
      rw [hS, List.nil_append, ← hT]
      by_cases hl : s.getLast? = some c
      · simp [hl]
      · simp [hl, hs]
  refine ⟨hmain, rfl, ?_, referenceSplit_join c s, referenceSplit_no_sep c s⟩
  intro hs hl
  rw [hmain, if_neg (by simp [hs, hl])]
  exact referenceSplit_join c s

theorem split_single_reference_witness :
    split "a//b/".toList ['/'] = ["a".toList, [], "b".toList] ∧
    referenceSplit '/' "a//b/".toList = ["a".toList, [], "b".toList, []] ∧
    List.intercalate ['/'] (split "a//b".toList ['/']) = "a//b".toList :=
  ⟨by decide, by decide,
    (split_single_reference "a//b".toList '/').2.2.1 (by decide) (by decide)⟩

/-- C16: for every text and every non-empty delimiter string, no segment that
`split` puts out holds the delimiter as a substring, and the segments occur in
the text in the order of the output, from left to right and without overlap. -/
theorem split_segments (text token : Str) (htok : token ≠ []) :
    (∀ seg ∈ split text token, ¬ ∃ a b, seg = a ++ token ++ b) ∧
    OccurInOrder (split text token) text := by
  obtain ⟨new, hres, hno, hord⟩ := splitLoop_segments text token htok text.length 0 0 [] []
    (Nat.le_refl _) (Nat.zero_le _) (by simp) (fun p hp1 hp2 => by omega)
  have hsplit : split text token = new := by
    unfold split; rw [hres]; simp
  rw [hsplit]
  exact ⟨hno, by simpa using hord⟩

theorem split_segments_witness :
    split "ab--cd-e--".toList "--".toList = ["ab".toList, "cd-e".toList] ∧
    (∀ seg ∈ split "ab--cd-e--".toList "--".toList,
      ¬ ∃ a b, seg = a ++ "--".toList ++ b) ∧
    OccurInOrder (split "ab--cd-e--".toList "--".toList) "ab--cd-e--".toList :=
  ⟨by decide, split_segments "ab--cd-e--".toList "--".toList (by decide)⟩

end objl
